import Mathlib

/-- Python logging severity levels used by `credential_manager.py`. -/
inductive LogLevel where
  | debug
  | info
  | error

deriving DecidableEq

/-- Numeric severity of a level, as in Python's `logging` module. -/
def LogLevel.severity : LogLevel → Nat
  | .debug => 10
  | .info => 20
  | .error => 40

/-- Contents of a file.  A file holds either plain bytes (`raw`) or a Fernet
token.  Model of byte strings: Fernet's wire format (version byte, timestamp,
IV, ciphertext, HMAC tag) is symbolic — a token is represented by the key it
was sealed under, the random nonce of that `encrypt` call and the plaintext
payload, which is exactly the information the real format determines. -/
inductive Bytes where
  | raw (data : List Nat)
  | fernetTok (key : List Nat) (nonce : Nat) (payload : List Nat)

deriving DecidableEq

/-- The byte content of a plain file; a Fernet token's byte serialization is
not needed by the program (tokens are only passed back to `Fernet.decrypt`),
so it is mapped to `[]`. -/
def bytesData : Bytes → List Nat
  | .raw d => d
  | .fernetTok _ _ _ => []

/-- Model of `cryptography.fernet.Fernet(key).encrypt(payload)`: seals the
payload under the key with a fresh nonce. -/
def fernetEncrypt (key : List Nat) (nonce : Nat) (payload : List Nat) : Bytes :=
  .fernetTok key nonce payload

/-- Model of `cryptography.fernet.Fernet(key).decrypt(data)` as a partial
function: returns the sealed payload when `data` is a well-formed Fernet token
sealed under exactly this key, and `none` (the `InvalidToken` exception) when
the key differs or the bytes are not a token sealed under the key (corrupted,
truncated or otherwise modified data). -/
def fernetDecrypt (key : List Nat) (data : Bytes) : Option (List Nat) :=
  match data with
  | .raw _ => none
  | .fernetTok k _ p => if k = key then some p else none

/-- Hash algorithms; the source only uses `hashes.SHA256()`. -/
inductive HashAlg where
  | sha256

deriving DecidableEq

def HashAlg.tag : HashAlg → Nat
  | .sha256 => 2

/-- One output byte of the PBKDF2 model: a deterministic mix of the algorithm,
iteration count, salt, password and byte index. -/
def prfByte (alg : HashAlg) (iterations : Nat) (salt pwd : List Nat) (i : Nat) : Nat :=
  ((salt ++ pwd).foldl (fun acc b => (acc * 131 + b + 1) % 4294967296)
    (alg.tag + iterations + i * 7919)) % 256

/-- Model of `PBKDF2HMAC(algorithm, length, salt, iterations).derive(password)`
from the external `cryptography` library: a deterministic function of all of
its parameters producing exactly `length` bytes.  (The real key-stretching
computation is replaced by a cheap deterministic mix; every property proved
below uses only determinism, the output length, and — as an explicit
hypothesis where needed — that two derived keys differ.) -/
def pbkdf2hmac (alg : HashAlg) (length iterations : Nat) (salt pwd : List Nat) : List Nat :=
  (List.range length).map (prfByte alg iterations salt pwd)

/-- The base64url alphabet (`base64.urlsafe_b64encode`), as ASCII codes. -/
def b64urlChar (n : Nat) : Nat :=
  if n < 26 then 65 + n
  else if n < 52 then 97 + (n - 26)
  else if n < 62 then 48 + (n - 52)
  else if n = 62 then 45
  else 95

/-- Model of `base64.urlsafe_b64encode` on byte lists (ASCII output codes,
with `=` padding). -/
def urlsafe_b64encode : List Nat → List Nat
  | [] => []
  | [b1] => [b64urlChar (b1 / 4), b64urlChar (b1 % 4 * 16), 61, 61]
  | [b1, b2] => [b64urlChar (b1 / 4), b64urlChar (b1 % 4 * 16 + b2 / 16),
      b64urlChar (b2 % 16 * 4), 61]
  | b1 :: b2 :: b3 :: rest =>
      b64urlChar (b1 / 4) :: b64urlChar (b1 % 4 * 16 + b2 / 16) ::
      b64urlChar (b2 % 16 * 4 + b3 / 64) :: b64urlChar (b3 % 64) ::
      urlsafe_b64encode rest

/-- `str.encode()`: the code points of a string (UTF-8 surrogate-free scalar
values; byte-level UTF-8 expansion is irrelevant to every property proved
here, so a code point stands for its encoded bytes). -/
def strBytes (s : String) : List Nat :=
  s.data.map Char.toNat

/-- Inverse direction used when the program decodes bytes back to text. -/
def stringOfCodes (codes : List Nat) : String :=
  ⟨codes.map Char.ofNat⟩

/-- `CredentialManager._derive_key`: PBKDF2-HMAC over SHA-256, 32 bytes,
100000 iterations, then URL-safe base64 — exactly the parameters in the
source. -/
def derive_key (password : String) (salt : List Nat) : List Nat :=
  urlsafe_b64encode (pbkdf2hmac .sha256 32 100000 salt (strBytes password))

example : (pbkdf2hmac .sha256 32 100000 [1, 2] [97]).length = 32 := by decide

example : derive_key "a" [1] ≠ derive_key "b" [1] := by decide

/-- A parsed JSON document (Python `json` value). -/
inductive Json where
  | null
  | bool (b : Bool)
  | num (n : Int)
  | str (s : String)
  | arr (elems : List Json)
  | obj (members : List (String × Json))

/-- JSON whitespace (`json` accepts space, tab, newline, carriage return). -/
def isJsonWs (c : Char) : Bool :=
  c = ' ' || c = '\t' || c = '\n' || c = '\r'

def skipWs : List Char → List Char
  | [] => []
  | c :: cs => if isJsonWs c then skipWs cs else c :: cs

def hexVal (c : Char) : Option Nat :=
  if '0' ≤ c ∧ c ≤ '9' then some (c.toNat - 48)
  else if 'a' ≤ c ∧ c ≤ 'f' then some (c.toNat - 97 + 10)
  else if 'A' ≤ c ∧ c ≤ 'F' then some (c.toNat - 65 + 10)
  else none

def isDigit (c : Char) : Bool := '0' ≤ c && c ≤ '9'

/-- Prepend a decoded character to the pending string-parse result. -/
def consFst (d : Char) : Option (List Char × List Char) → Option (List Char × List Char)
  | some (tail, rest) => some (d :: tail, rest)
  | none => none

/-- Parse the body of a JSON string after the opening quote; returns the
decoded characters and the input remaining after the closing quote.
Strict mode: raw control characters are rejected. -/
def parseStrBody : List Char → Option (List Char × List Char)
  | [] => none
  | c :: cs =>
    if c = '"' then some ([], cs)
    else if c = '\\' then
      match cs with
      | [] => none
      | e :: cs' =>
        if e = '"' then consFst '"' (parseStrBody cs')
        else if e = '\\' then consFst '\\' (parseStrBody cs')
        else if e = '/' then consFst '/' (parseStrBody cs')
        else if e = 'b' then consFst (Char.ofNat 8) (parseStrBody cs')
        else if e = 'f' then consFst (Char.ofNat 12) (parseStrBody cs')
        else if e = 'n' then consFst '\n' (parseStrBody cs')
        else if e = 'r' then consFst '\r' (parseStrBody cs')
        else if e = 't' then consFst '\t' (parseStrBody cs')
        else if e = 'u' then
          match cs' with
          | h1 :: h2 :: h3 :: h4 :: cs'' =>
            match hexVal h1, hexVal h2, hexVal h3, hexVal h4 with
            | some v1, some v2, some v3, some v4 =>
                consFst (Char.ofNat (v1 * 4096 + v2 * 256 + v3 * 16 + v4))
                  (parseStrBody cs'')
            | _, _, _, _ => none
          | _ => none
        else none
    else if c.toNat < 32 then none
    else consFst c (parseStrBody cs)

/-- Parse a run of decimal digits into its value (most significant first),
returning the value, the number of digits, and the rest. -/
def parseDigits : List Char → Nat → Nat → Nat × Nat × List Char
  | c :: cs, acc, count =>
    if isDigit c then parseDigits cs (acc * 10 + (c.toNat - 48)) (count + 1)
    else (acc, count, c :: cs)
  | [], acc, count => (acc, count, [])

/-- Parse a JSON number restricted to integers (the JSON grammar's integer
part, with the no-leading-zero rule); a following `.`, `e` or `E` means a
float, which the model rejects. -/
def parseIntNum (cs : List Char) : Option (Int × List Char) :=
  let sc : Bool × List Char :=
    match cs with
    | c :: rest => if c = '-' then (true, rest) else (false, c :: rest)
    | [] => (false, [])
  match parseDigits sc.2 0 0 with
  | (_, 0, _) => none
  | (v, count, rest) =>
    let okLead : Bool :=
      match sc.2 with
      | c :: _ => if c = '0' then count = 1 else true
      | [] => true
    let okNext : Bool :=
      match rest with
      | c :: _ => !(c = '.' || c = 'e' || c = 'E')
      | [] => true
    if okLead && okNext then
      some (if sc.1 then -(v : Int) else (v : Int), rest)
    else none

/-- Python `dict` insertion: a repeated key keeps its original position and
takes the new value; a new key is appended. -/
def objInsert (k : String) (v : Json) : List (String × Json) → List (String × Json)
  | [] => [(k, v)]
  | (k', v') :: rest =>
    if k' = k then (k', v) :: rest else (k', v') :: objInsert k v rest

mutual

/-- Parse one JSON value (fuel-indexed recursive-descent parser following the
`json` module's grammar, minus floats). -/
def parseValue : Nat → List Char → Option (Json × List Char)
  | 0, _ => none
  | fuel + 1, cs =>
    match skipWs cs with
    | [] => none
    | c :: cs' =>
      if c = '"' then
        match parseStrBody cs' with
        | some (content, rest) => some (.str ⟨content⟩, rest)
        | none => none
      else if c = Char.ofNat 123 then
        match skipWs cs' with
        | c₂ :: cs₂ =>
          if c₂ = Char.ofNat 125 then some (.obj [], cs₂)
          else parseMembers fuel (c₂ :: cs₂) []
        | [] => none
      else if c = '[' then
        match skipWs cs' with
        | c₂ :: cs₂ =>
          if c₂ = ']' then some (.arr [], cs₂)
          else parseItems fuel (c₂ :: cs₂) []
        | [] => none
      else if c = 't' then
        match cs' with
        | 'r' :: 'u' :: 'e' :: rest => some (.bool true, rest)
        | _ => none
      else if c = 'f' then
        match cs' with
        | 'a' :: 'l' :: 's' :: 'e' :: rest => some (.bool false, rest)
        | _ => none
      else if c = 'n' then
        match cs' with
        | 'u' :: 'l' :: 'l' :: rest => some (.null, rest)
        | _ => none
      else
        match parseIntNum (c :: cs') with
        | some (n, rest) => some (.num n, rest)
        | none => none

/-- Parse the members of a JSON object after `{` (positioned at the first
member); accumulates with `dict` insertion semantics. -/
def parseMembers (fuel : Nat) (cs : List Char) (acc : List (String × Json)) :
    Option (Json × List Char) :=
  match fuel with
  | 0 => none
  | fuel + 1 =>
    match skipWs cs with
    | '"' :: cs' =>
      match parseStrBody cs' with
      | some (keyChars, afterKey) =>
        match skipWs afterKey with
        | ':' :: afterColon =>
          match parseValue fuel afterColon with
          | some (v, afterVal) =>
            let acc' := objInsert ⟨keyChars⟩ v acc
            match skipWs afterVal with
            | ',' :: afterComma => parseMembers fuel afterComma acc'
            | c :: rest =>
              if c = Char.ofNat 125 then some (.obj acc', rest) else none
            | [] => none
          | none => none
        | _ => none
      | none => none
    | _ => none

/-- Parse the items of a JSON array after `[` (positioned at the first
item). -/
def parseItems (fuel : Nat) (cs : List Char) (acc : List Json) :
    Option (Json × List Char) :=
  match fuel with
  | 0 => none
  | fuel + 1 =>
    match parseValue fuel cs with
    | some (v, afterVal) =>
      match skipWs afterVal with
      | ',' :: afterComma => parseItems fuel afterComma (acc ++ [v])
      | ']' :: rest => some (.arr (acc ++ [v]), rest)
      | _ => none
    | none => none

end

/-- Model of `json.loads`: parse a complete document, allowing surrounding
whitespace only. -/
def json_loads (s : String) : Option Json :=
  match parseValue (s.length + 1) s.data with
  | some (v, rest) =>
    match skipWs rest with
    | [] => some v
    | _ => none
  | none => none

example : parseIntNum "-17,".data = some (-17, [',']) := by decide

example : parseStrBody "ab\\nc\" tail".data = some ("ab\nc".data, " tail".data) := by decide

example : json_loads " \x7b \"a\" : [1, true, null] \x7d " =
    some (.obj [("a", .arr [.num 1, .bool true, .null])]) := by rfl

example : json_loads "\x7b\"a\":1,\"b\":2,\"a\":3\x7d" =
    some (.obj [("a", .num 3), ("b", .num 2)]) := by rfl

example : json_loads "1.5" = none := by rfl

example : json_loads "01" = none := by rfl

/-- Lower-case hex digit for a value below 16. -/
def hexDigit (n : Nat) : Char :=
  if n < 10 then Char.ofNat (48 + n) else Char.ofNat (97 + (n - 10))

/-- Serialization of one string character (`json.dumps` escaping; the model
writes every control character in `\u00XX` form and passes other characters
through — the `ensure_ascii` transliteration of non-ASCII characters does not
affect any property stated below). -/
def escapeChar (c : Char) : List Char :=
  if c = '"' then ['\\', '"']
  else if c = '\\' then ['\\', '\\']
  else if c.toNat < 32 then
    ['\\', 'u', '0', '0', hexDigit (c.toNat / 16), hexDigit (c.toNat % 16)]
  else [c]

def escapeString (s : String) : List Char :=
  '"' :: (s.data.flatMap escapeChar) ++ ['"']

/-- Decimal digits of an integer. -/
def natCharsAux : Nat → Nat → List Char
  | 0, _ => []
  | fuel + 1, n =>
    if n < 10 then [Char.ofNat (48 + n)]
    else natCharsAux fuel (n / 10) ++ [Char.ofNat (48 + n % 10)]

/-- Decimal representation of a natural number (model of Python `repr`),
most significant digit first, no leading zeros. -/
def natChars (n : Nat) : List Char := natCharsAux (n + 1) n

def intChars : Int → List Char
  | .ofNat n => natChars n
  | .negSucc m => '-' :: natChars (m + 1)

mutual

/-- Model of `json.dumps` with the default separators `", "` and `": "`. -/
def dumpsVal : Json → List Char
  | .null => "null".data
  | .bool true => "true".data
  | .bool false => "false".data
  | .num n => intChars n
  | .str s => escapeString s
  | .arr [] => "[]".data
  | .arr (x :: xs) => '[' :: dumpsVal x ++ dumpsArr xs ++ [']']
  | .obj [] => [Char.ofNat 123, Char.ofNat 125]
  | .obj (m :: ms) =>
      Char.ofNat 123 :: (escapeString m.1 ++ ':' :: ' ' :: dumpsVal m.2)
        ++ dumpsObj ms ++ [Char.ofNat 125]

def dumpsArr : List Json → List Char
  | [] => []
  | x :: xs => ',' :: ' ' :: dumpsVal x ++ dumpsArr xs

def dumpsObj : List (String × Json) → List Char
  | [] => []
  | m :: ms => ',' :: ' ' :: escapeString m.1 ++ ':' :: ' ' :: dumpsVal m.2 ++ dumpsObj ms

end

def json_dumps (v : Json) : String := ⟨dumpsVal v⟩

example : json_dumps (.obj [("a", .arr [.num 1, .bool true, .null]), ("b", .str "x")]) =
    "\x7b\"a\": [1, true, null], \"b\": \"x\"\x7d" := by rfl

example : json_loads (json_dumps (.obj [("a", .arr [.num 1, .bool true, .null])])) =
    some (.obj [("a", .arr [.num 1, .bool true, .null])]) := by rfl

def indentChars (level : Nat) : List Char :=
  '\n' :: List.replicate (2 * level) ' '

mutual

/-- Model of `json.dump(..., indent=2)` (item separator `","`, key separator
`": "`, two-space indentation), used for the temporary credentials file. -/
def dumpsIndVal : Nat → Json → List Char
  | _, .null => "null".data
  | _, .bool true => "true".data
  | _, .bool false => "false".data
  | _, .num n => intChars n
  | _, .str s => escapeString s
  | _, .arr [] => "[]".data
  | level, .arr (x :: xs) =>
      '[' :: indentChars (level + 1) ++ dumpsIndVal (level + 1) x
        ++ dumpsIndArr (level + 1) xs ++ indentChars level ++ [']']
  | _, .obj [] => [Char.ofNat 123, Char.ofNat 125]
  | level, .obj (m :: ms) =>
      Char.ofNat 123 :: indentChars (level + 1) ++ escapeString m.1
        ++ ':' :: ' ' :: dumpsIndVal (level + 1) m.2
        ++ dumpsIndObj (level + 1) ms ++ indentChars level ++ [Char.ofNat 125]

def dumpsIndArr : Nat → List Json → List Char
  | _, [] => []
  | level, x :: xs => ',' :: indentChars level ++ dumpsIndVal level x ++ dumpsIndArr level xs

def dumpsIndObj : Nat → List (String × Json) → List Char
  | _, [] => []
  | level, m :: ms =>
      ',' :: indentChars level ++ escapeString m.1 ++ ':' :: ' ' :: dumpsIndVal level m.2
        ++ dumpsIndObj level ms

end

def json_dumps_indent2 (v : Json) : String := ⟨dumpsIndVal 0 v⟩

structure World where
  files : List (String × Bytes)
  log : List (LogLevel × String)
  promptResponses : List String
  promptCount : Nat
  saltEntropy : List (List Nat)
  nonceEntropy : List Nat
  badPaths : List String

deriving DecidableEq

/-- Python exceptions reaching the `except` clauses of the source. -/
inductive PyErr where
  | fileNotFound (path : String)
  | jsonDecodeError (what : String)
  | invalidToken
  | ioError (path : String)

deriving DecidableEq

abbrev PyM (α : Type) : Type := EStateM PyErr World α

/-- First file entry for a path (files are keyed uniquely by construction). -/
def lookupFile (p : String) : List (String × Bytes) → Option Bytes
  | [] => none
  | (q, b) :: rest => if q = p then some b else lookupFile p rest

/-- Remove every entry for a path. -/
def eraseKey (p : String) : List (String × Bytes) → List (String × Bytes)
  | [] => []
  | (q, b) :: rest => if q = p then eraseKey p rest else (q, b) :: eraseKey p rest

/-- `logger.<level>(msg)`. -/
def logMsg (lvl : LogLevel) (msg : String) : PyM Unit :=
  modify fun w => { w with log := (lvl, msg) :: w.log }

/-- `os.path.exists`. -/
def pathExists (p : String) : PyM Bool := do
  let w ← get
  pure (lookupFile p w.files).isSome

/-- `open(p, 'rb').read()` (and, composed with decoding, `open(p, 'r')`):
raises `FileNotFoundError` when the path is absent. -/
def readFileB (p : String) : PyM Bytes := do
  let w ← get
  match lookupFile p w.files with
  | some b => pure b
  | none => throw (.fileNotFound p)

/-- `open(p, 'wb').write(b)` / `open(p, 'w').write(s)`: raises `OSError` on a
bad path, otherwise replaces the file's content. -/
def writeFileB (p : String) (b : Bytes) : PyM Unit := do
  let w ← get
  if p ∈ w.badPaths then throw (.ioError p)
  else set { w with files := (p, b) :: eraseKey p w.files }

/-- `os.remove`. -/
def osRemove (p : String) : PyM Unit := do
  let w ← get
  if p ∈ w.badPaths then throw (.ioError p)
  else if (lookupFile p w.files).isSome then
    set { w with files := eraseKey p w.files }
  else throw (.fileNotFound p)

/-- `os.urandom n`: consumes the next block of the entropy stream, padded or
truncated to exactly `n` bytes. -/
def osUrandom (n : Nat) : PyM (List Nat) := do
  let w ← get
  match w.saltEntropy with
  | e :: rest =>
    set { w with saltEntropy := rest }
    pure ((e ++ List.replicate n 0).take n)
  | [] => pure (List.replicate n 0)

/-- `getpass.getpass(prompt)`: consumes the next pending response (empty
input at end of stream) and records that a prompt happened. -/
def getpassPrompt (prompt : String) : PyM String := do
  let w ← get
  match w.promptResponses with
  | r :: rest =>
    set { w with promptResponses := rest, promptCount := w.promptCount + 1 }
    pure r
  | [] =>
    set { w with promptCount := w.promptCount + 1 }
    pure ""

/-- Fernet's per-call random nonce (IV/timestamp), from its own stream. -/
def nextNonce : PyM Nat := do
  let w ← get
  match w.nonceEntropy with
  | n :: rest =>
    set { w with nonceEntropy := rest }
    pure n
  | [] => pure 0

/-- The Python body's `password = password if password is not None else
getpass.getpass(prompt)`. -/
def obtainPassword (password : Option String) (prompt : String) : PyM String :=
  match password with
  | some pw => pure pw
  | none => getpassPrompt prompt

structure CredentialManager where
  encrypted_file : String
  salt_file : String

deriving DecidableEq

/-- `CredentialManager.__init__` (the default argument is
`'credentials.encrypted'`; the constructor's info log is not modelled as no
property concerns it). -/
def mkManager (encrypted_file : String := "credentials.encrypted") : CredentialManager :=
  ⟨encrypted_file, encrypted_file ++ ".salt"⟩

/-- `CredentialManager._get_salt`. -/
def get_salt (m : CredentialManager) : PyM (List Nat) := do
  if (← pathExists m.salt_file) then
    logMsg .debug ("Loading existing salt from " ++ m.salt_file)
    let b ← readFileB m.salt_file
    pure (bytesData b)
  else
    logMsg .info ("Generating new salt and saving to " ++ m.salt_file)
    let salt ← osUrandom 16
    writeFileB m.salt_file (.raw salt)
    pure salt

/-- Python `str.replace` (all non-overlapping occurrences, left to right) on
character lists; fuel-indexed so that it reduces definitionally (each step
consumes at least one character, so `s.length` fuel is always enough). -/
def listReplaceAux (pat rep : List Char) : Nat → List Char → List Char
  | 0, s => s
  | _ + 1, [] => []
  | fuel + 1, c :: cs =>
    if pat.isPrefixOf (c :: cs) then
      rep ++ listReplaceAux pat rep fuel (List.drop (pat.length - 1) cs)
    else
      c :: listReplaceAux pat rep fuel cs

def listReplace (pat rep s : List Char) : List Char :=
  listReplaceAux pat rep s.length s

def pyReplace (s pat rep : String) : String :=
  ⟨listReplace pat.data rep.data s.data⟩

/-- `self.encrypted_file.replace('.encrypted', '_token.encrypted')` — the
token-artifact path expression shared verbatim by `encrypt_token` (line 244)
and `decrypt_token` (line 267). -/
def tokenPath (m : CredentialManager) : String :=
  pyReplace m.encrypted_file ".encrypted" "_token.encrypted"

/-- The `try:` body of `CredentialManager.encrypt_credentials`. -/
def encrypt_credentials_body (m : CredentialManager) (credentials_path : String)
    (password : Option String) : PyM Bool := do
  if !(← pathExists credentials_path) then
    logMsg .error ("Credentials file not found: " ++ credentials_path)
    pure false
  else
    let password ← obtainPassword password "Enter password to encrypt credentials: "
    logMsg .info ("Reading credentials from " ++ credentials_path)
    let src ← readFileB credentials_path
    let credentials_data ← match json_loads (stringOfCodes (bytesData src)) with
      | some v => pure v
      | none => throw (.jsonDecodeError credentials_path)
    let salt ← get_salt m
    let key := derive_key password salt
    logMsg .info "Encrypting credentials data"
    let nonce ← nextNonce
    let encrypted_data := fernetEncrypt key nonce (strBytes (json_dumps credentials_data))
    logMsg .info ("Saving encrypted credentials to " ++ m.encrypted_file)
    writeFileB m.encrypted_file encrypted_data
    logMsg .info "Credentials encrypted successfully"
    pure true

/-- The log message of each `except` clause of `encrypt_credentials`. -/
def encryptErrMsg : PyErr → String
  | .fileNotFound p => "File not found: " ++ p
  | .jsonDecodeError what => "Invalid JSON in credentials file: " ++ what
  | .invalidToken => "Failed to encrypt credentials: InvalidToken"
  | .ioError p => "Failed to encrypt credentials: OSError: " ++ p

/-- `CredentialManager.encrypt_credentials`: the body wrapped in its
`try/except` clauses, each of which logs at error level and returns
`False`. -/
def encrypt_credentials (m : CredentialManager) (credentials_path : String)
    (password : Option String) (w : World) : Bool × World :=
  match (encrypt_credentials_body m credentials_path password).run w with
  | .ok b w' => (b, w')
  | .error e w' => (false, { w' with log := (.error, encryptErrMsg e) :: w'.log })

/-- The `try:` body of `CredentialManager.decrypt_credentials`. -/
def decrypt_credentials_body (m : CredentialManager) (password : Option String) :
    PyM (Option Json) := do
  if !(← pathExists m.encrypted_file) then
    logMsg .error ("Encrypted credentials file not found: " ++ m.encrypted_file)
    pure none
  else if !(← pathExists m.salt_file) then
    logMsg .error ("Salt file not found: " ++ m.salt_file)
    pure none
  else
    let password ← obtainPassword password "Enter password to decrypt credentials: "
    let salt ← get_salt m
    let key := derive_key password salt
    logMsg .info ("Reading encrypted credentials from " ++ m.encrypted_file)
    let encrypted_data ← readFileB m.encrypted_file
    logMsg .info "Decrypting credentials data"
    let decrypted_data ← match fernetDecrypt key encrypted_data with
      | some p => pure p
      | none => throw .invalidToken
    let credentials_data ← match json_loads (stringOfCodes decrypted_data) with
      | some v => pure v
      | none => throw (.jsonDecodeError "decrypted data")
    logMsg .info "Credentials decrypted successfully"
    pure (some credentials_data)

/-- The log message of each `except` clause of `decrypt_credentials`. -/
def decryptErrMsg : PyErr → String
  | .fileNotFound p => "File not found: " ++ p
  | .jsonDecodeError what => "Invalid JSON in decrypted data: " ++ what
  | .invalidToken => "Failed to decrypt credentials: InvalidToken"
  | .ioError p => "Failed to decrypt credentials: OSError: " ++ p

/-- `CredentialManager.decrypt_credentials`: body plus `except` clauses, each
logging at error level and returning `None`. -/
def decrypt_credentials (m : CredentialManager) (password : Option String)
    (w : World) : Option Json × World :=
  match (decrypt_credentials_body m password).run w with
  | .ok r w' => (r, w')
  | .error e w' => (none, { w' with log := (.error, decryptErrMsg e) :: w'.log })

/-- Lift a public (exception-free) operation back into the monad, for bodies
that call other public methods of the class. -/
def liftPair (f : World → α × World) : PyM α :=
  fun w => let (a, w') := f w; .ok a w'

/-- The `try:` body of `CredentialManager.create_temp_credentials_file`. -/
def create_temp_credentials_file_body (m : CredentialManager)
    (password : Option String) : PyM (Option String) := do
  let credentials_data ← liftPair (decrypt_credentials m password)
  match credentials_data with
  | none => pure none
  | some v =>
    let temp_file := "temp_credentials.json"
    logMsg .info ("Creating temporary credentials file: " ++ temp_file)
    writeFileB temp_file (.raw (strBytes (json_dumps_indent2 v)))
    pure (some temp_file)

/-- `CredentialManager.create_temp_credentials_file`: body plus its generic
`except Exception` clause (error log, `None`). -/
def create_temp_credentials_file (m : CredentialManager) (password : Option String)
    (w : World) : Option String × World :=
  match (create_temp_credentials_file_body m password).run w with
  | .ok r w' => (r, w')
  | .error _ w' =>
    (none, { w' with log := (.error, "Failed to create temporary credentials file") :: w'.log })

/-- The `try:` body of `CredentialManager.cleanup_temp_file`. -/
def cleanup_temp_file_body (temp_file : String) : PyM Unit := do
  if (← pathExists temp_file) then
    logMsg .info ("Removing temporary credentials file: " ++ temp_file)
    osRemove temp_file
  else
    pure ()

/-- `CredentialManager.cleanup_temp_file`: deletion errors are swallowed and
logged, never propagated. -/
def cleanup_temp_file (temp_file : String) (w : World) : World :=
  match (cleanup_temp_file_body temp_file).run w with
  | .ok _ w' => w'
  | .error _ w' =>
    { w' with log := (.error, "Failed to remove temporary file " ++ temp_file) :: w'.log }

/-- The `try:` body of `CredentialManager.encrypt_token`. -/
def encrypt_token_body (m : CredentialManager) (token_data : List Nat)
    (password : Option String) : PyM Bool := do
  let password ← obtainPassword password "Enter password to encrypt token: "
  let salt ← get_salt m
  let key := derive_key password salt
  logMsg .info "Encrypting token data"
  let nonce ← nextNonce
  let encrypted_data := fernetEncrypt key nonce token_data
  let encrypted_token_path := tokenPath m
  logMsg .info ("Saving encrypted token to " ++ encrypted_token_path)
  writeFileB encrypted_token_path encrypted_data
  logMsg .info "Token encrypted successfully"
  pure true

/-- `CredentialManager.encrypt_token`: body plus its generic `except`
clause. -/
def encrypt_token (m : CredentialManager) (token_data : List Nat)
    (password : Option String) (w : World) : Bool × World :=
  match (encrypt_token_body m token_data password).run w with
  | .ok b w' => (b, w')
  | .error _ w' => (false, { w' with log := (.error, "Failed to encrypt token") :: w'.log })

/-- The `try:` body of `CredentialManager.decrypt_token`. -/
def decrypt_token_body (m : CredentialManager) (password : Option String) :
    PyM (Option (List Nat)) := do
  let encrypted_token_path := tokenPath m
  if !(← pathExists encrypted_token_path) then
    logMsg .info ("Encrypted token file not found: " ++ encrypted_token_path)
    pure none
  else if !(← pathExists m.salt_file) then
    logMsg .error ("Salt file not found: " ++ m.salt_file)
    pure none
  else
    let password ← obtainPassword password "Enter password to decrypt token: "
    let salt ← get_salt m
    let key := derive_key password salt
    logMsg .info ("Reading encrypted token from " ++ encrypted_token_path)
    let encrypted_data ← readFileB encrypted_token_path
    logMsg .info "Decrypting token data"
    let decrypted_data ← match fernetDecrypt key encrypted_data with
      | some p => pure p
      | none => throw .invalidToken
    logMsg .info "Token decrypted successfully"
    pure (some decrypted_data)

/-- `CredentialManager.decrypt_token`: `except FileNotFoundError` logs at
info level, the generic `except Exception` at error level; both return
`None`. -/
def decrypt_token (m : CredentialManager) (password : Option String)
    (w : World) : Option (List Nat) × World :=
  match (decrypt_token_body m password).run w with
  | .ok r w' => (r, w')
  | .error (.fileNotFound p) w' =>
    (none, { w' with log := (.info, "Encrypted token file not found: " ++ p) :: w'.log })
  | .error _ w' => (none, { w' with log := (.error, "Failed to decrypt token") :: w'.log })

/-- The response `getpass` returns, given the pending-response stream. -/
def promptedPw (responses : List String) : String :=
  match responses with
  | r :: _ => r
  | [] => ""

/-- The world after one `getpass` call: one response consumed (if any), one
prompt recorded. -/
def popPrompt (w : World) : World :=
  { w with promptResponses := w.promptResponses.tail, promptCount := w.promptCount + 1 }

/-- The bytes `os.urandom n` produces, given the entropy stream. -/
def freshBytes (n : Nat) (entropy : List (List Nat)) : List Nat :=
  match entropy with
  | e :: _ => (e ++ List.replicate n 0).take n
  | [] => List.replicate n 0

/-- The world after one `os.urandom` call. -/
def popSaltEntropy (w : World) : World :=
  { w with saltEntropy := w.saltEntropy.tail }

/-- The nonce Fernet draws, given its entropy stream. -/
def currNonce (entropy : List Nat) : Nat :=
  match entropy with
  | n :: _ => n
  | [] => 0

/-- The world after Fernet draws one nonce. -/
def popNonce (w : World) : World :=
  { w with nonceEntropy := w.nonceEntropy.tail }

/-- The salt an operation will use in world `w` (existing sidecar bytes, or
the bytes a fresh generation would produce). -/
def saltOf (m : CredentialManager) (w : World) : List Nat :=
  match lookupFile m.salt_file w.files with
  | some b => bytesData b
  | none => freshBytes 16 w.saltEntropy

def c1World : World :=
  { files := [("credentials.json",
      .raw (strBytes "\x7b\"installed\": \x7b\"client_id\": \"abc123\", \"client_secret\": \"shh\"\x7d\x7d"))]
    log := []
    promptResponses := []
    promptCount := 0
    saltEntropy := [[9, 8, 7, 6, 5, 4, 3, 2, 1, 0, 10, 11, 12, 13, 14, 15]]
    nonceEntropy := [42]
    badPaths := [] }

def c1Doc : Json :=
  .obj [("installed", .obj [("client_id", .str "abc123"), ("client_secret", .str "shh")])]

def c2World : World :=
  { files := [
      ("credentials.encrypted",
        .fernetTok (derive_key "correct-horse" [1, 2, 3, 4]) 7 (strBytes "\x7b\x7d")),
      ("credentials_token.encrypted",
        .fernetTok (derive_key "correct-horse" [1, 2, 3, 4]) 8 [0, 1, 2]),
      ("credentials.encrypted.salt", .raw [1, 2, 3, 4])]
    log := []
    promptResponses := []
    promptCount := 0
    saltEntropy := []
    nonceEntropy := []
    badPaths := [] }

/-- One `_get_salt` call, as a plain state transformer (the error case cannot
occur when the sidecar path is writable; it is mapped to a junk result). -/
def stepSalt (m : CredentialManager) (w : World) : List Nat × World :=
  match (get_salt m).run w with
  | .ok s w' => (s, w')
  | .error _ w' => ([], w')

/-- `n` repeated `_get_salt` calls, keeping the final world. -/
def iterSalt (m : CredentialManager) : Nat → World → World
  | 0, w => w
  | n + 1, w => (stepSalt m (iterSalt m n w)).2

def c6World : World :=
  { files := []
    log := []
    promptResponses := []
    promptCount := 0
    saltEntropy := [[9, 8, 7, 6, 5, 4, 3, 2, 1, 0, 10, 11, 12, 13, 14, 15]]
    nonceEntropy := []
    badPaths := [] }

def c7World : World :=
  { files := []
    log := []
    promptResponses := []
    promptCount := 0
    saltEntropy := []
    nonceEntropy := []
    badPaths := [] }

def c7WorldSalt : World :=
  { c7World with files := [("credentials_token.encrypted", .raw [0])] }

def c7WorldAuth : World :=
  { c7World with files := [("credentials_token.encrypted", .raw [0]),
      ("credentials.encrypted.salt", .raw [5, 6])] }

def c10World : World :=
  { files := []
    log := []
    promptResponses := ["typed-password"]
    promptCount := 0
    saltEntropy := []
    nonceEntropy := []
    badPaths := [] }

def c10WorldS : World :=
  { c10World with files := [("credentials.encrypted", .raw [0]),
      ("credentials_token.encrypted", .raw [1])] }

def c8World : World :=
  { files := [
      ("credentials.encrypted",
        .fernetTok (derive_key "pw" [1, 2]) 5 (strBytes "\x7b\"a\": 1\x7d")),
      ("credentials.encrypted.salt", .raw [1, 2])]
    log := []
    promptResponses := []
    promptCount := 0
    saltEntropy := []
    nonceEntropy := []
    badPaths := [] }

def c8WorldFail : World :=
  { c8World with files := [] }

def c8WorldStuck : World :=
  { c8World with
      files := [("temp_credentials.json", .raw [1])],
      badPaths := ["temp_credentials.json"] }

def c9Base : World :=
  { files := []
    log := []
    promptResponses := []
    promptCount := 0
    saltEntropy := [[3, 1, 4, 1, 5, 9, 2, 6, 5, 3, 5, 8, 9, 7, 9, 3]]
    nonceEntropy := [11]
    badPaths := [] }

def c9W1 : World :=
  { c9Base with
      files := ("credentials.json", Bytes.raw (strBytes " \x7b \"a\" : 1 \x7d ")) ::
        eraseKey "credentials.json" c9Base.files }

def c9W2 : World :=
  { c9Base with
      files := ("credentials.json", Bytes.raw (strBytes "\x7b\"a\":1\x7d")) ::
        eraseKey "credentials.json" c9Base.files }

/-- Number of non-overlapping occurrences `str.replace` would substitute
(same left-to-right scan as `listReplaceAux`). -/
def countOccurAux (pat : List Char) : Nat → List Char → Nat
  | 0, _ => 0
  | _ + 1, [] => 0
  | fuel + 1, c :: cs =>
    if pat.isPrefixOf (c :: cs) then
      1 + countOccurAux pat fuel (List.drop (pat.length - 1) cs)
    else countOccurAux pat fuel cs

def countOccur (pat s : List Char) : Nat := countOccurAux pat s.length s

/-- The pattern has no nontrivial border (no proper prefix equal to a proper
suffix), so occurrences cannot overlap. -/
def borderFree (pat : List Char) : Prop :=
  ∀ k < pat.length, 0 < k → pat.take (pat.length - k) ≠ pat.drop k

def c5World : World :=
  { files := []
    log := []
    promptResponses := []
    promptCount := 0
    saltEntropy := [[2, 7, 1, 8, 2, 8, 1, 8, 2, 8, 4, 5, 9, 0, 4, 5]]
    nonceEntropy := [3]
    badPaths := [] }

def resultState {α : Type} : EStateM.Result PyErr World α → World
  | .ok _ w => w
  | .error _ w => w

/-- The operation only appends to the log (on success and on exception). -/
def LogMono {α : Type} (x : PyM α) : Prop :=
  ∀ w : World, ∃ l, (resultState (x.run w)).log = l ++ w.log

/-- Every normally-returned failure value was preceded by a new log entry. -/
def FailsLogged {α : Type} (bad : α → Prop) (x : PyM α) : Prop :=
  ∀ (w : World) (a : α) (w₁ : World), x.run w = .ok a w₁ → bad a →
    w.log.length < w₁.log.length

/-- The operation appends at least one log entry on every path. -/
def LogGrows {α : Type} (x : PyM α) : Prop :=
  ∀ w : World, w.log.length < (resultState (x.run w)).log.length

/-- Well-formed documents: every object has pairwise-distinct keys (exactly
the values the parser can produce, since `dict` collapses duplicates). -/
inductive JsonWF : Json → Prop
  | null : JsonWF .null
  | bool (b : Bool) : JsonWF (.bool b)
  | num (n : Int) : JsonWF (.num n)
  | str (s : String) : JsonWF (.str s)
  | arr (elems : List Json) (h : ∀ x ∈ elems, JsonWF x) : JsonWF (.arr elems)
  | obj (members : List (String × Json)) (h : ∀ m ∈ members, JsonWF m.2)
      (hkeys : (members.map Prod.fst).Nodup) : JsonWF (.obj members)

/-- The digit-run value accumulated the way `parseDigits` accumulates it. -/
def digitsVal (acc : Nat) (ds : List Char) : Nat :=
  ds.foldl (fun a c => a * 10 + (c.toNat - 48)) acc

/-- What may legally follow a serialized number (no digit, no float tail). -/
def goodNumRest : List Char → Prop
  | [] => True
  | c :: _ => isDigit c = false ∧ c ≠ '.' ∧ c ≠ 'e' ∧ c ≠ 'E'

/-- The next character, if any, is not a digit. -/
def tailNotDigit : List Char → Prop
  | [] => True
  | c :: _ => isDigit c = false

mutual

/-- Structural size of a document: an upper bound on the parser fuel it
needs. -/
def jsize : Json → Nat
  | .null => 1
  | .bool _ => 1
  | .num _ => 1
  | .str _ => 1
  | .arr [] => 1
  | .arr (x :: xs) => 2 + jsize x + jsizeList xs
  | .obj [] => 1
  | .obj (m :: ms) => 2 + jsize m.2 + jsizeMembers ms

def jsizeList : List Json → Nat
  | [] => 0
  | x :: xs => 1 + jsize x + jsizeList xs

def jsizeMembers : List (String × Json) → Nat
  | [] => 0
  | m :: ms => 1 + jsize m.2 + jsizeMembers ms

end

/-- What may legally follow a serialized value in context: nothing, or a
separator/closer. -/
def goodRest : List Char → Prop
  | [] => True
  | c :: _ => c = ',' ∨ c = ']' ∨ c = Char.ofNat 125

theorem char_ofNat_toNat (c : Char) : Char.ofNat c.toNat = c := by
  have h : c.toNat.isValidChar := c.valid
  rw [Char.ofNat, dif_pos h]
  apply Char.eq_of_val_eq
  apply UInt32.eq_of_toBitVec_eq
  apply BitVec.eq_of_toNat_eq
  simp [Char.ofNatAux, Char.toNat, UInt32.toNat]

theorem map_char_roundtrip (l : List Char) : l.map (Char.ofNat ∘ Char.toNat) = l := by
  induction l with
  | nil => rfl
  | cons c cs ih => simp_all [char_ofNat_toNat]

/-- Decoding the encoded code points of a string gives the string back. -/
theorem stringOfCodes_strBytes (s : String) : stringOfCodes (strBytes s) = s := by
  cases s with
  | mk data => simp [stringOfCodes, strBytes, List.map_map, map_char_roundtrip]

@[simp] theorem lookupFile_nil (p : String) : lookupFile p [] = none := rfl

@[simp] theorem lookupFile_cons (p q : String) (b : Bytes) (l : List (String × Bytes)) :
    lookupFile p ((q, b) :: l) = if q = p then some b else lookupFile p l := rfl

@[simp] theorem lookupFile_eraseKey_self (p : String) (l : List (String × Bytes)) :
    lookupFile p (eraseKey p l) = none := by
  induction l with
  | nil => rfl
  | cons kv rest ih =>
    obtain ⟨q, b⟩ := kv
    by_cases h : q = p <;> simp [eraseKey, h, ih]

@[simp] theorem lookupFile_eraseKey_ne (p q : String) (h : q ≠ p)
    (l : List (String × Bytes)) : lookupFile p (eraseKey q l) = lookupFile p l := by
  induction l with
  | nil => rfl
  | cons kv rest ih =>
    obtain ⟨r, b⟩ := kv
    by_cases hr : r = q
    · subst hr
      simp [eraseKey, h, ih]
    · by_cases hp : r = p <;> simp [eraseKey, hr, hp, ih, Ne.symm h]

/-- A base path and its `.salt` sidecar are distinct. -/
theorem salt_file_ne_encrypted_file (base : String) : base ++ ".salt" ≠ base := by
  intro h
  have hlen := congrArg String.length h
  rw [String.length_append] at hlen
  have h5 : ".salt".length = 5 := rfl
  rw [h5] at hlen
  omega

theorem run_bind_ok {α β : Type} {x : PyM α} {f : α → PyM β} {w w' : World} {a : α}
    (h : x.run w = .ok a w') : (x >>= f).run w = (f a).run w' := by
  show EStateM.bind x f w = _
  unfold EStateM.bind
  rw [show x w = EStateM.Result.ok a w' from h]
  rfl

theorem run_bind_error {α β : Type} {x : PyM α} {f : α → PyM β} {w w' : World} {e : PyErr}
    (h : x.run w = .error e w') : (x >>= f).run w = .error e w' := by
  show EStateM.bind x f w = _
  unfold EStateM.bind
  rw [show x w = EStateM.Result.error e w' from h]

theorem run_pure {α : Type} (a : α) (w : World) : (pure a : PyM α).run w = .ok a w := rfl

theorem run_throw {α : Type} (e : PyErr) (w : World) :
    (throw e : PyM α).run w = .error e w := rfl

theorem run_get (w : World) : (get : PyM World).run w = .ok w w := rfl

theorem run_set (w' w : World) : (set w' : PyM Unit).run w = .ok () w' := rfl

theorem run_pathExists (p : String) (w : World) :
    (pathExists p).run w = .ok (lookupFile p w.files).isSome w := rfl

theorem run_logMsg (lvl : LogLevel) (msg : String) (w : World) :
    (logMsg lvl msg).run w = .ok () { w with log := (lvl, msg) :: w.log } := rfl

theorem run_obtainPassword_some (pw : String) (prompt : String) (w : World) :
    (obtainPassword (some pw) prompt).run w = .ok pw w := rfl

theorem run_getpassPrompt (p : String) (w : World) :
    (getpassPrompt p).run w = .ok (promptedPw w.promptResponses) (popPrompt w) := by
  unfold getpassPrompt promptedPw popPrompt
  cases h : w.promptResponses with
  | nil =>
    simp only [run_bind_ok (run_get w), h, List.tail_nil]
    rw [run_bind_ok (run_set _ _)]
    exact run_pure _ _
  | cons r rest =>
    simp only [run_bind_ok (run_get w), h, List.tail_cons]
    rw [run_bind_ok (run_set _ _)]
    exact run_pure _ _

theorem run_obtainPassword_none (prompt : String) (w : World) :
    (obtainPassword none prompt).run w = .ok (promptedPw w.promptResponses) (popPrompt w) :=
  run_getpassPrompt prompt w

theorem run_readFileB_ok {p : String} {w : World} {b : Bytes}
    (h : lookupFile p w.files = some b) : (readFileB p).run w = .ok b w := by
  unfold readFileB
  rw [run_bind_ok (run_get w)]
  simp only [h]
  exact run_pure b w

theorem run_readFileB_missing {p : String} {w : World}
    (h : lookupFile p w.files = none) :
    (readFileB p).run w = .error (.fileNotFound p) w := by
  unfold readFileB
  rw [run_bind_ok (run_get w)]
  simp only [h]
  exact run_throw _ w

theorem run_writeFileB_ok {p : String} {w : World} (b : Bytes) (h : p ∉ w.badPaths) :
    (writeFileB p b).run w = .ok () { w with files := (p, b) :: eraseKey p w.files } := by
  unfold writeFileB
  rw [run_bind_ok (run_get w), if_neg h]
  exact run_set _ _

theorem run_writeFileB_bad {p : String} {w : World} (b : Bytes) (h : p ∈ w.badPaths) :
    (writeFileB p b).run w = .error (.ioError p) w := by
  unfold writeFileB
  rw [run_bind_ok (run_get w), if_pos h]
  exact run_throw _ w

theorem run_osRemove_ok {p : String} {w : World} (hbad : p ∉ w.badPaths)
    (hex : (lookupFile p w.files).isSome = true) :
    (osRemove p).run w = .ok () { w with files := eraseKey p w.files } := by
  unfold osRemove
  rw [run_bind_ok (run_get w), if_neg hbad, if_pos hex]
  exact run_set _ _

theorem run_osRemove_bad {p : String} {w : World} (h : p ∈ w.badPaths) :
    (osRemove p).run w = .error (.ioError p) w := by
  unfold osRemove
  rw [run_bind_ok (run_get w), if_pos h]
  exact run_throw _ w

theorem run_osRemove_missing {p : String} {w : World} (hbad : p ∉ w.badPaths)
    (hex : lookupFile p w.files = none) :
    (osRemove p).run w = .error (.fileNotFound p) w := by
  unfold osRemove
  have hc : ¬((lookupFile p w.files).isSome = true) := by simp [hex]
  rw [run_bind_ok (run_get w), if_neg hbad, if_neg hc]
  exact run_throw _ w

theorem run_osUrandom (n : Nat) (w : World) :
    (osUrandom n).run w = .ok (freshBytes n w.saltEntropy) (popSaltEntropy w) := by
  unfold osUrandom freshBytes popSaltEntropy
  cases h : w.saltEntropy with
  | nil =>
    simp only [run_bind_ok (run_get w), h, List.tail_nil]
    rw [show ({ w with saltEntropy := [] } : World) = w by rw [← h]]
    exact run_pure _ w
  | cons e rest =>
    simp only [run_bind_ok (run_get w), h, List.tail_cons]
    rw [run_bind_ok (run_set _ _)]
    exact run_pure _ _

theorem run_nextNonce (w : World) :
    (nextNonce).run w = .ok (currNonce w.nonceEntropy) (popNonce w) := by
  unfold nextNonce currNonce popNonce
  cases h : w.nonceEntropy with
  | nil =>
    simp only [run_bind_ok (run_get w), h, List.tail_nil]
    rw [show ({ w with nonceEntropy := [] } : World) = w by rw [← h]]
    exact run_pure _ w
  | cons n rest =>
    simp only [run_bind_ok (run_get w), h, List.tail_cons]
    rw [run_bind_ok (run_set _ _)]
    exact run_pure _ _

theorem run_bind_assoc {α β γ : Type} (x : PyM α) (f : α → PyM β) (g : β → PyM γ)
    (w : World) : ((x >>= f) >>= g).run w = (x >>= fun a => f a >>= g).run w := by
  show EStateM.bind (EStateM.bind x f) g w = EStateM.bind x (fun a => EStateM.bind (f a) g) w
  unfold EStateM.bind
  cases x w <;> rfl

theorem run_bind_pure {α β : Type} (a : α) (f : α → PyM β) (w : World) :
    ((pure a : PyM α) >>= f).run w = (f a).run w := rfl

theorem run_bind_throw {α β : Type} (e : PyErr) (f : α → PyM β) (w : World) :
    ((throw e : PyM α) >>= f).run w = .error e w := rfl

theorem run_bind_get {β : Type} (f : World → PyM β) (w : World) :
    ((get : PyM World) >>= f).run w = (f w).run w := rfl

theorem run_bind_pathExists {β : Type} (p : String) (f : Bool → PyM β) (w : World) :
    (pathExists p >>= f).run w = (f (lookupFile p w.files).isSome).run w :=
  run_bind_ok (run_pathExists p w)

theorem run_bind_logMsg {β : Type} (lvl : LogLevel) (msg : String) (f : Unit → PyM β)
    (w : World) : (logMsg lvl msg >>= f).run w =
      (f ()).run { w with log := (lvl, msg) :: w.log } :=
  run_bind_ok (run_logMsg lvl msg w)

theorem run_bind_obtainPassword_some {β : Type} (pw : String) (prompt : String)
    (f : String → PyM β) (w : World) :
    (obtainPassword (some pw) prompt >>= f).run w = (f pw).run w :=
  run_bind_ok (run_obtainPassword_some pw prompt w)

theorem run_bind_obtainPassword_none {β : Type} (prompt : String)
    (f : String → PyM β) (w : World) :
    (obtainPassword none prompt >>= f).run w =
      (f (promptedPw w.promptResponses)).run (popPrompt w) :=
  run_bind_ok (run_obtainPassword_none prompt w)

theorem run_bind_readFileB {β : Type} (p : String) (f : Bytes → PyM β) (w : World) :
    (readFileB p >>= f).run w =
      match lookupFile p w.files with
      | some b => (f b).run w
      | none => .error (.fileNotFound p) w := by
  cases h : lookupFile p w.files with
  | some b => rw [run_bind_ok (run_readFileB_ok h)]
  | none => rw [run_bind_error (run_readFileB_missing h)]

theorem run_bind_writeFileB {β : Type} (p : String) (b : Bytes) (f : Unit → PyM β)
    (w : World) : (writeFileB p b >>= f).run w =
      if p ∈ w.badPaths then .error (.ioError p) w
      else (f ()).run { w with files := (p, b) :: eraseKey p w.files } := by
  by_cases h : p ∈ w.badPaths
  · rw [run_bind_error (run_writeFileB_bad b h), if_pos h]
  · rw [run_bind_ok (run_writeFileB_ok b h), if_neg h]

theorem run_bind_osUrandom {β : Type} (n : Nat) (f : List Nat → PyM β) (w : World) :
    (osUrandom n >>= f).run w = (f (freshBytes n w.saltEntropy)).run (popSaltEntropy w) :=
  run_bind_ok (run_osUrandom n w)

theorem run_bind_nextNonce {β : Type} (f : Nat → PyM β) (w : World) :
    (nextNonce >>= f).run w = (f (currNonce w.nonceEntropy)).run (popNonce w) :=
  run_bind_ok (run_nextNonce w)

theorem run_osRemove (p : String) (w : World) :
    (osRemove p).run w =
      if p ∈ w.badPaths then .error (.ioError p) w
      else if (lookupFile p w.files).isSome then .ok () { w with files := eraseKey p w.files }
      else .error (.fileNotFound p) w := by
  by_cases h : p ∈ w.badPaths
  · rw [run_osRemove_bad h, if_pos h]
  · cases hex : lookupFile p w.files with
    | some b =>
      rw [run_osRemove_ok h (by simp [hex]), if_neg h]
      simp [hex]
    | none =>
      rw [run_osRemove_missing h hex, if_neg h]
      simp [hex]

theorem run_bind_liftPair {α β : Type} (f : World → α × World) (g : α → PyM β) (w : World) :
    (liftPair f >>= g).run w = (g (f w).1).run (f w).2 := by
  show EStateM.bind (liftPair f) g w = _
  unfold EStateM.bind liftPair
  rfl

theorem run_get_salt_read {m : CredentialManager} {w : World} {b : Bytes}
    (h : lookupFile m.salt_file w.files = some b) :
    (get_salt m).run w = .ok (bytesData b)
      { w with log := (.debug, "Loading existing salt from " ++ m.salt_file) :: w.log } := by
  unfold get_salt
  simp only [run_bind_assoc, run_bind_pathExists, run_bind_logMsg, run_bind_readFileB,
    run_bind_pure, run_pure, h, Option.isSome_some, eq_self_iff_true, if_true]

theorem run_get_salt_create {m : CredentialManager} {w : World}
    (h : lookupFile m.salt_file w.files = none) (hbad : m.salt_file ∉ w.badPaths) :
    (get_salt m).run w = .ok (freshBytes 16 w.saltEntropy)
      { w with
          saltEntropy := w.saltEntropy.tail,
          files := (m.salt_file, .raw (freshBytes 16 w.saltEntropy)) ::
            eraseKey m.salt_file w.files,
          log := (.info, "Generating new salt and saving to " ++ m.salt_file) :: w.log } := by
  unfold get_salt
  simp only [run_bind_assoc, run_bind_pathExists, run_bind_logMsg, run_bind_osUrandom,
    run_bind_writeFileB, run_bind_pure, run_pure, h, Option.isSome_none,
    Bool.false_eq_true, if_false, popSaltEntropy]
  simp [hbad]

theorem run_bind_get_salt {β : Type} (m : CredentialManager) (f : List Nat → PyM β)
    (w : World) :
    ((get_salt m) >>= f).run w =
      match lookupFile m.salt_file w.files with
      | some b => (f (bytesData b)).run
          { w with log := (.debug, "Loading existing salt from " ++ m.salt_file) :: w.log }
      | none =>
        if m.salt_file ∈ w.badPaths then
          .error (.ioError m.salt_file)
            { w with
                log := (.info, "Generating new salt and saving to " ++ m.salt_file) :: w.log,
                saltEntropy := w.saltEntropy.tail }
        else
          (f (freshBytes 16 w.saltEntropy)).run
            { w with
                log := (.info, "Generating new salt and saving to " ++ m.salt_file) :: w.log,
                saltEntropy := w.saltEntropy.tail,
                files := (m.salt_file, .raw (freshBytes 16 w.saltEntropy)) ::
                  eraseKey m.salt_file w.files } := by
  cases h : lookupFile m.salt_file w.files with
  | some b =>
    rw [run_bind_ok (run_get_salt_read h)]
  | none =>
    by_cases hbad : m.salt_file ∈ w.badPaths
    · unfold get_salt
      simp only [run_bind_assoc, run_bind_pathExists, run_bind_logMsg, run_bind_osUrandom,
        run_bind_writeFileB, h, Option.isSome_none, Bool.not_false, Bool.false_eq_true,
        if_false, if_pos hbad, popSaltEntropy]
    · rw [run_bind_ok (run_get_salt_create h hbad)]
      simp [hbad]

theorem encrypt_credentials_spec {m : CredentialManager} {path : String} {pw : String}
    {w : World} {srcBytes : List Nat} {v : Json}
    (hne : m.salt_file ≠ m.encrypted_file)
    (hsrc : lookupFile path w.files = some (.raw srcBytes))
    (hjson : json_loads (stringOfCodes srcBytes) = some v)
    (hbadS : m.salt_file ∉ w.badPaths)
    (hbadE : m.encrypted_file ∉ w.badPaths) :
    (encrypt_credentials m path (some pw) w).1 = true ∧
    lookupFile m.encrypted_file (encrypt_credentials m path (some pw) w).2.files =
      some (.fernetTok (derive_key pw (saltOf m w)) (currNonce w.nonceEntropy)
        (strBytes (json_dumps v))) ∧
    (∃ bs, lookupFile m.salt_file (encrypt_credentials m path (some pw) w).2.files = some bs ∧
      bytesData bs = saltOf m w) := by
  unfold encrypt_credentials encrypt_credentials_body saltOf
  cases hsalt : lookupFile m.salt_file w.files with
  | some bs =>
    simp only [run_bind_assoc, run_bind_pathExists, run_bind_obtainPassword_some,
      run_bind_logMsg, run_bind_readFileB, run_bind_get_salt, run_bind_nextNonce,
      run_bind_writeFileB, run_bind_pure, run_pure, hsrc, hjson, hsalt,
      Option.isSome_some, Bool.not_true, Bool.false_eq_true, if_false,
      bytesData, fernetEncrypt, popNonce, popSaltEntropy]
    simp [hbadE, hne, Ne.symm hne, hsalt]
  | none =>
    simp only [run_bind_assoc, run_bind_pathExists, run_bind_obtainPassword_some,
      run_bind_logMsg, run_bind_readFileB, run_bind_get_salt, run_bind_nextNonce,
      run_bind_writeFileB, run_bind_pure, run_pure, hsrc, hjson, hsalt,
      Option.isSome_some, Bool.not_true, Bool.false_eq_true, if_false,
      bytesData, fernetEncrypt, popNonce, popSaltEntropy]
    simp [hbadS, hbadE, hne, Ne.symm hne]

theorem decrypt_credentials_spec {m : CredentialManager} {pw : String} {w : World}
    {salt payload : List Nat} {nonce : Nat} {bs : Bytes} {v : Json}
    (hart : lookupFile m.encrypted_file w.files =
      some (.fernetTok (derive_key pw salt) nonce payload))
    (hsalt : lookupFile m.salt_file w.files = some bs)
    (hsd : bytesData bs = salt)
    (hjson : json_loads (stringOfCodes payload) = some v) :
    (decrypt_credentials m (some pw) w).1 = some v := by
  unfold decrypt_credentials decrypt_credentials_body
  simp only [run_bind_assoc, run_bind_pathExists, run_bind_obtainPassword_some,
    run_bind_logMsg, run_bind_readFileB, run_bind_get_salt, run_bind_pure, run_pure,
    run_logMsg, EStateM.Result.map, hart, hsalt, hsd, hjson, Option.isSome_some,
    Bool.not_true, Bool.false_eq_true, if_false, fernetDecrypt]
  simp [run_logMsg, EStateM.Result.map, hart, hjson]

theorem decrypt_credentials_missing_artifact {m : CredentialManager} {w : World}
    (h : lookupFile m.encrypted_file w.files = none) (pw : Option String) :
    decrypt_credentials m pw w = (none,
      { w with log := (.error, "Encrypted credentials file not found: " ++ m.encrypted_file)
          :: w.log }) := by
  unfold decrypt_credentials decrypt_credentials_body
  simp only [run_bind_assoc, run_bind_pathExists, run_bind_logMsg, run_bind_pure, run_pure,
    h, Option.isSome_none, Bool.not_false, Bool.false_eq_true, if_true]

theorem decrypt_credentials_missing_salt {m : CredentialManager} {w : World} {b : Bytes}
    (hart : lookupFile m.encrypted_file w.files = some b)
    (hsalt : lookupFile m.salt_file w.files = none) (pw : Option String) :
    decrypt_credentials m pw w = (none,
      { w with log := (.error, "Salt file not found: " ++ m.salt_file) :: w.log }) := by
  unfold decrypt_credentials decrypt_credentials_body
  simp only [run_bind_assoc, run_bind_pathExists, run_bind_logMsg, run_bind_pure, run_pure,
    hart, hsalt, Option.isSome_some, Option.isSome_none, Bool.not_true, Bool.not_false,
    Bool.false_eq_true, if_true, if_false]

theorem decrypt_credentials_auth_fail {m : CredentialManager} {pw : String} {w : World}
    {art bs : Bytes}
    (hart : lookupFile m.encrypted_file w.files = some art)
    (hsalt : lookupFile m.salt_file w.files = some bs)
    (hfd : fernetDecrypt (derive_key pw (bytesData bs)) art = none) :
    (decrypt_credentials m (some pw) w).1 = none ∧
    (decrypt_credentials m (some pw) w).2.log.head? =
      some (.error, decryptErrMsg .invalidToken) ∧
    (decrypt_credentials m (some pw) w).2.files = w.files := by
  unfold decrypt_credentials decrypt_credentials_body
  simp only [run_bind_assoc, run_bind_pathExists, run_bind_obtainPassword_some,
    run_bind_logMsg, run_bind_readFileB, run_bind_get_salt, run_bind_pure, run_pure,
    run_throw, run_bind_throw, hart, hsalt, hfd, Option.isSome_some, Bool.not_true,
    Bool.false_eq_true, if_false]
  simp [hart, hfd]

theorem decrypt_token_missing_token {m : CredentialManager} {w : World}
    (h : lookupFile (tokenPath m) w.files = none) (pw : Option String) :
    decrypt_token m pw w = (none,
      { w with log := (.info, "Encrypted token file not found: " ++ tokenPath m)
          :: w.log }) := by
  unfold decrypt_token decrypt_token_body
  simp only [run_bind_assoc, run_bind_pathExists, run_bind_logMsg, run_bind_pure, run_pure,
    h, Option.isSome_none, Bool.not_false, Bool.false_eq_true, if_true]

theorem decrypt_token_missing_salt {m : CredentialManager} {w : World} {b : Bytes}
    (hart : lookupFile (tokenPath m) w.files = some b)
    (hsalt : lookupFile m.salt_file w.files = none) (pw : Option String) :
    decrypt_token m pw w = (none,
      { w with log := (.error, "Salt file not found: " ++ m.salt_file) :: w.log }) := by
  unfold decrypt_token decrypt_token_body
  simp only [run_bind_assoc, run_bind_pathExists, run_bind_logMsg, run_bind_pure, run_pure,
    hart, hsalt, Option.isSome_some, Option.isSome_none, Bool.not_true, Bool.not_false,
    Bool.false_eq_true, if_true, if_false]

theorem decrypt_token_auth_fail {m : CredentialManager} {pw : String} {w : World}
    {art bs : Bytes}
    (hart : lookupFile (tokenPath m) w.files = some art)
    (hsalt : lookupFile m.salt_file w.files = some bs)
    (hfd : fernetDecrypt (derive_key pw (bytesData bs)) art = none) :
    (decrypt_token m (some pw) w).1 = none ∧
    (decrypt_token m (some pw) w).2.log.head? = some (.error, "Failed to decrypt token") ∧
    (decrypt_token m (some pw) w).2.files = w.files := by
  unfold decrypt_token decrypt_token_body
  simp only [run_bind_assoc, run_bind_pathExists, run_bind_obtainPassword_some,
    run_bind_logMsg, run_bind_readFileB, run_bind_get_salt, run_bind_pure, run_pure,
    run_throw, run_bind_throw, hart, hsalt, hfd, Option.isSome_some, Bool.not_true,
    Bool.false_eq_true, if_false]
  simp [hart, hfd]

theorem decrypt_token_spec {m : CredentialManager} {pw : String} {w : World}
    {salt payload : List Nat} {nonce : Nat} {bs : Bytes}
    (hart : lookupFile (tokenPath m) w.files =
      some (.fernetTok (derive_key pw salt) nonce payload))
    (hsalt : lookupFile m.salt_file w.files = some bs)
    (hsd : bytesData bs = salt) :
    (decrypt_token m (some pw) w).1 = some payload := by
  unfold decrypt_token decrypt_token_body
  simp only [run_bind_assoc, run_bind_pathExists, run_bind_obtainPassword_some,
    run_bind_logMsg, run_bind_readFileB, run_bind_get_salt, run_bind_pure, run_pure,
    run_logMsg, EStateM.Result.map, hart, hsalt, hsd, Option.isSome_some,
    Bool.not_true, Bool.false_eq_true, if_false, fernetDecrypt]
  simp [run_logMsg, EStateM.Result.map, hart]

/-- `decrypt_credentials` never writes, creates or deletes a file, and leaves
the I/O-fault set unchanged, on every path (success and all failures). -/
theorem decrypt_credentials_frame (m : CredentialManager) (pw : Option String) (w : World) :
    (decrypt_credentials m pw w).2.files = w.files ∧
    (decrypt_credentials m pw w).2.badPaths = w.badPaths := by
  unfold decrypt_credentials decrypt_credentials_body
  cases hart : lookupFile m.encrypted_file w.files with
  | none =>
    simp only [run_bind_assoc, run_bind_pathExists, run_bind_logMsg, run_bind_pure,
      run_pure, hart, Option.isSome_none, Bool.not_false, Bool.false_eq_true, if_true]
    constructor <;> trivial
  | some art =>
    cases hsalt : lookupFile m.salt_file w.files with
    | none =>
      simp only [run_bind_assoc, run_bind_pathExists, run_bind_logMsg, run_bind_pure,
        run_pure, hart, hsalt, Option.isSome_some, Option.isSome_none, Bool.not_true,
        Bool.not_false, Bool.false_eq_true, if_true, if_false]
      constructor <;> trivial
    | some bs =>
      cases pw with
      | some p =>
        cases hfd : fernetDecrypt (derive_key p (bytesData bs)) art with
        | none =>
          simp only [run_bind_assoc, run_bind_pathExists, run_bind_obtainPassword_some,
            run_bind_logMsg, run_bind_readFileB, run_bind_get_salt, run_bind_pure,
            run_pure, run_throw, run_bind_throw, run_logMsg, EStateM.Result.map,
            hart, hsalt, hfd, Option.isSome_some, Bool.not_true, Bool.false_eq_true,
            if_false]
          constructor <;> trivial
        | some payload =>
          cases hjson : json_loads (stringOfCodes payload) with
          | none =>
            simp only [run_bind_assoc, run_bind_pathExists, run_bind_obtainPassword_some,
              run_bind_logMsg, run_bind_readFileB, run_bind_get_salt, run_bind_pure,
              run_pure, run_throw, run_bind_throw, run_logMsg, EStateM.Result.map,
              hart, hsalt, hfd, hjson, Option.isSome_some, Bool.not_true,
              Bool.false_eq_true, if_false]
            constructor <;> trivial
          | some v =>
            simp only [run_bind_assoc, run_bind_pathExists, run_bind_obtainPassword_some,
              run_bind_logMsg, run_bind_readFileB, run_bind_get_salt, run_bind_pure,
              run_pure, run_throw, run_bind_throw, run_logMsg, EStateM.Result.map,
              hart, hsalt, hfd, hjson, Option.isSome_some, Bool.not_true,
              Bool.false_eq_true, if_false]
            constructor <;> trivial
      | none =>
        cases hfd : fernetDecrypt (derive_key (promptedPw w.promptResponses) (bytesData bs)) art with
        | none =>
          simp only [run_bind_assoc, run_bind_pathExists, run_bind_obtainPassword_none,
            run_bind_logMsg, run_bind_readFileB, run_bind_get_salt, run_bind_pure,
            run_pure, run_throw, run_bind_throw, run_logMsg, EStateM.Result.map,
            popPrompt, hart, hsalt, hfd, Option.isSome_some, Bool.not_true,
            Bool.false_eq_true, if_false]
          constructor <;> trivial
        | some payload =>
          cases hjson : json_loads (stringOfCodes payload) with
          | none =>
            simp only [run_bind_assoc, run_bind_pathExists, run_bind_obtainPassword_none,
              run_bind_logMsg, run_bind_readFileB, run_bind_get_salt, run_bind_pure,
              run_pure, run_throw, run_bind_throw, run_logMsg, EStateM.Result.map,
              popPrompt, hart, hsalt, hfd, hjson, Option.isSome_some, Bool.not_true,
              Bool.false_eq_true, if_false]
            constructor <;> trivial
          | some v =>
            simp only [run_bind_assoc, run_bind_pathExists, run_bind_obtainPassword_none,
              run_bind_logMsg, run_bind_readFileB, run_bind_get_salt, run_bind_pure,
              run_pure, run_throw, run_bind_throw, run_logMsg, EStateM.Result.map,
              popPrompt, hart, hsalt, hfd, hjson, Option.isSome_some, Bool.not_true,
              Bool.false_eq_true, if_false]
            constructor <;> trivial

theorem create_temp_none {m : CredentialManager} {pw : Option String} {w : World}
    (hd : (decrypt_credentials m pw w).1 = none) :
    create_temp_credentials_file m pw w = (none, (decrypt_credentials m pw w).2) := by
  unfold create_temp_credentials_file create_temp_credentials_file_body
  rw [run_bind_liftPair]
  simp only [hd, run_pure]

theorem create_temp_some {m : CredentialManager} {pw : Option String} {w : World} {v : Json}
    (hd : (decrypt_credentials m pw w).1 = some v)
    (hbad : "temp_credentials.json" ∉ (decrypt_credentials m pw w).2.badPaths) :
    create_temp_credentials_file m pw w = (some "temp_credentials.json",
      { (decrypt_credentials m pw w).2 with
          files := ("temp_credentials.json", .raw (strBytes (json_dumps_indent2 v))) ::
            eraseKey "temp_credentials.json" (decrypt_credentials m pw w).2.files,
          log := (.info, "Creating temporary credentials file: temp_credentials.json") ::
            (decrypt_credentials m pw w).2.log }) := by
  unfold create_temp_credentials_file create_temp_credentials_file_body
  rw [run_bind_liftPair]
  simp only [hd, run_bind_assoc, run_bind_logMsg, run_bind_writeFileB, run_pure,
    run_bind_pure]
  simp [hbad]

theorem cleanup_removes {p : String} {w : World} (hbad : p ∉ w.badPaths) :
    lookupFile p (cleanup_temp_file p w).files = none := by
  unfold cleanup_temp_file cleanup_temp_file_body
  cases hex : lookupFile p w.files with
  | none =>
    simp only [run_bind_assoc, run_bind_pathExists, run_pure, hex, Option.isSome_none,
      Bool.false_eq_true, if_false]
  | some b =>
    simp only [run_bind_assoc, run_bind_pathExists, run_bind_logMsg, run_osRemove,
      hex, Option.isSome_some, if_true]
    simp [hbad]

theorem cleanup_swallows {p : String} {w : World} (hbad : p ∈ w.badPaths)
    {b : Bytes} (hex : lookupFile p w.files = some b) :
    (cleanup_temp_file p w).files = w.files ∧
    (cleanup_temp_file p w).log.head? =
      some (.error, "Failed to remove temporary file " ++ p) := by
  unfold cleanup_temp_file cleanup_temp_file_body
  simp only [run_bind_assoc, run_bind_pathExists, run_bind_logMsg, run_osRemove,
    hex, Option.isSome_some, if_true]
  simp [hbad]

theorem char_eq_iff_toNat {c c' : Char} : c = c' ↔ c.toNat = c'.toNat := by
  constructor
  · intro h; rw [h]
  · intro h
    have := char_ofNat_toNat c
    rw [h, char_ofNat_toNat c'] at this
    exact this.symm

theorem toNat_ofNat_small {n : Nat} (h : n < 55296) : (Char.ofNat n).toNat = n := by
  have hv : n.isValidChar := Or.inl h
  rw [Char.ofNat, dif_pos hv]
  simp [Char.ofNatAux, Char.toNat, UInt32.toNat]

theorem isDigit_iff {c : Char} : isDigit c = true ↔ 48 ≤ c.toNat ∧ c.toNat ≤ 57 := by
  have h1 : ('0' ≤ c) ↔ 48 ≤ c.toNat := Iff.rfl
  have h2 : (c ≤ '9') ↔ c.toNat ≤ 57 := Iff.rfl
  simp [isDigit, h1, h2]

theorem toNat_digit_char {d : Nat} (h : d < 10) : (Char.ofNat (48 + d)).toNat = 48 + d :=
  toNat_ofNat_small (by omega)

/-- Every character `natCharsAux` emits is a decimal digit. -/
theorem natCharsAux_digits : ∀ (fuel n : Nat), ∀ c ∈ natCharsAux fuel n,
    48 ≤ c.toNat ∧ c.toNat ≤ 57 := by
  intro fuel
  induction fuel with
  | zero => intro n c hc; simp [natCharsAux] at hc
  | succ fuel ih =>
    intro n c hc
    unfold natCharsAux at hc
    by_cases h : n < 10
    · rw [if_pos h] at hc
      simp at hc
      rw [hc, toNat_digit_char h]
      omega
    · rw [if_neg h] at hc
      rcases List.mem_append.mp hc with hm | hm
      · exact ih (n / 10) c hm
      · simp at hm
        rw [hm, toNat_digit_char (Nat.mod_lt n (by omega))]
        have := Nat.mod_lt n (show 0 < 10 by omega)
        omega

theorem natCharsAux_ne_nil {fuel n : Nat} (h : n < fuel) : natCharsAux fuel n ≠ [] := by
  cases fuel with
  | zero => omega
  | succ fuel =>
    unfold natCharsAux
    by_cases h10 : n < 10
    · simp [h10]
    · simp [h10]

theorem digitsVal_append (acc : Nat) (ds₁ ds₂ : List Char) :
    digitsVal acc (ds₁ ++ ds₂) = digitsVal (digitsVal acc ds₁) ds₂ := by
  unfold digitsVal
  rw [List.foldl_append]

/-- `natCharsAux` is a correct decimal representation. -/
theorem natCharsAux_val : ∀ (fuel n acc : Nat), n < fuel →
    digitsVal acc (natCharsAux fuel n) = acc * 10 ^ (natCharsAux fuel n).length + n := by
  intro fuel
  induction fuel with
  | zero => intro n acc h; omega
  | succ fuel ih =>
    intro n acc h
    unfold natCharsAux
    by_cases h10 : n < 10
    · rw [if_pos h10]
      simp [digitsVal, toNat_digit_char h10]
    · rw [if_neg h10]
      have hdiv : n / 10 < fuel := by
        have h1 : n / 10 < n := Nat.div_lt_self (by omega) (by omega)
        omega
      rw [digitsVal_append, ih (n / 10) acc hdiv]
      simp [digitsVal, toNat_digit_char (Nat.mod_lt n (by omega))]
      rw [pow_succ]
      ring_nf
      omega

theorem natChars_val (n : Nat) : digitsVal 0 (natChars n) = n := by
  unfold natChars
  rw [natCharsAux_val (n + 1) n 0 (by omega)]
  simp

/-- `natCharsAux` has a leading zero only for zero itself. -/
theorem natCharsAux_head_zero : ∀ (fuel n : Nat), 0 < n → n < fuel →
    ∀ t, natCharsAux fuel n ≠ '0' :: t := by
  intro fuel
  induction fuel with
  | zero => intro n h0 h; omega
  | succ fuel ih =>
    intro n h0 h t
    unfold natCharsAux
    by_cases h10 : n < 10
    · rw [if_pos h10]
      intro hc
      have h1 : Char.ofNat (48 + n) = '0' := by
        injection hc
      rw [char_eq_iff_toNat, toNat_digit_char h10] at h1
      have : ('0').toNat = 48 := rfl
      omega
    · rw [if_neg h10]
      intro hc
      have hdivpos : 0 < n / 10 := Nat.div_pos (by omega) (by omega)
      have hdiv : n / 10 < fuel := by
        have h1 : n / 10 < n := Nat.div_lt_self (by omega) (by omega)
        omega
      have hne := natCharsAux_ne_nil hdiv
      cases hd : natCharsAux fuel (n / 10) with
      | nil => exact hne hd
      | cons c cs =>
        rw [hd] at hc
        simp at hc
        exact ih (n / 10) hdivpos hdiv cs (by rw [hd, hc.1])

theorem parseDigits_run : ∀ (ds : List Char) (acc count : Nat) (rest : List Char),
    (∀ c ∈ ds, isDigit c = true) →
    tailNotDigit rest →
    parseDigits (ds ++ rest) acc count = (digitsVal acc ds, count + ds.length, rest) := by
  intro ds
  induction ds with
  | nil =>
    intro acc count rest hds hrest
    cases rest with
    | nil => simp [parseDigits, digitsVal]
    | cons c r =>
      have hc : isDigit c = false := hrest
      simp only [List.nil_append, parseDigits, hc]
      simp [digitsVal]
  | cons d ds ih =>
    intro acc count rest hds hrest
    have hd : isDigit d = true := hds d (by simp)
    simp only [List.cons_append, parseDigits, hd, if_true, List.append_eq]
    rw [ih (acc * 10 + (d.toNat - 48)) (count + 1) rest (fun c hc => hds c (by simp [hc])) hrest]
    simp [digitsVal]
    omega

theorem digit_ne_chars {c : Char} (h : 48 ≤ c.toNat ∧ c.toNat ≤ 57) :
    c ≠ '-' ∧ (c.toNat = 48 ∨ c ≠ '0') := by
  constructor
  · intro hc
    rw [char_eq_iff_toNat] at hc
    have : ('-').toNat = 45 := rfl
    omega
  · by_cases h0 : c.toNat = 48
    · exact Or.inl h0
    · refine Or.inr ?_
      intro hc
      rw [char_eq_iff_toNat] at hc
      have : ('0').toNat = 48 := rfl
      omega

theorem parseIntNum_natChars (m : Nat) (rest : List Char) (h : goodNumRest rest) :
    parseIntNum (natChars m ++ rest) = some ((m : Int), rest) := by
  obtain ⟨d, ds, hnat⟩ : ∃ d ds, natChars m = d :: ds := by
    cases hn : natChars m with
    | nil => exact absurd hn (natCharsAux_ne_nil (by omega))
    | cons d ds => exact ⟨d, ds, rfl⟩
  have hdig : ∀ c ∈ natChars m, isDigit c = true := by
    intro c hc
    exact isDigit_iff.mpr (natCharsAux_digits (m + 1) m c hc)
  have hdnum : 48 ≤ d.toNat ∧ d.toNat ≤ 57 :=
    natCharsAux_digits (m + 1) m d (by rw [show natCharsAux (m+1) m = natChars m from rfl, hnat]; simp)
  have hrest' : tailNotDigit rest := by
    cases rest with
    | nil => trivial
    | cons c r => exact h.1
  have hdg := parseDigits_run (natChars m) 0 0 rest hdig hrest'
  rw [natChars_val] at hdg
  unfold parseIntNum
  rw [hnat, List.cons_append]
  have hdm : d ≠ '-' := (digit_ne_chars hdnum).1
  simp only [hdm, if_false]
  rw [← List.cons_append, ← hnat, hdg]
  obtain ⟨L, hL⟩ : ∃ L, (natChars m).length = L + 1 := by
    rw [hnat]; exact ⟨ds.length, by simp⟩
  rw [hL]
  simp only [Nat.zero_add]
  by_cases hm0 : m = 0
  · subst hm0
    have h00 : d :: ds = ['0'] := by rw [← hnat]; decide
    have hd : d = '0' := by injection h00 with h1 _
    have hds : ds = ([] : List Char) := by injection h00 with _ h2
    have hL0 : L = 0 := by
      rw [hnat, hds] at hL
      simpa using hL.symm
    subst hd; subst hL0
    cases rest with
    | nil => simp
    | cons c r => simp [h.2.1, h.2.2.1, h.2.2.2]
  · have hd0 : d ≠ '0' := by
      rcases (digit_ne_chars hdnum).2 with h48 | hne
      · exfalso
        have hz := natCharsAux_head_zero (m + 1) m (by omega) (by omega) ds
        apply hz
        rw [show natCharsAux (m+1) m = natChars m from rfl, hnat]
        congr 1
        rw [char_eq_iff_toNat, h48]
        rfl
      · exact hne
    cases rest with
    | nil => simp [hd0]
    | cons c r => simp [hd0, h.2.1, h.2.2.1, h.2.2.2]

theorem parseIntNum_intChars (n : Int) (rest : List Char) (h : goodNumRest rest) :
    parseIntNum (intChars n ++ rest) = some (n, rest) := by
  cases n with
  | ofNat m =>
    simpa [intChars] using parseIntNum_natChars m rest h
  | negSucc m =>
    obtain ⟨d, ds, hnat⟩ : ∃ d ds, natChars (m + 1) = d :: ds := by
      cases hn : natChars (m + 1) with
      | nil => exact absurd hn (natCharsAux_ne_nil (by omega))
      | cons d ds => exact ⟨d, ds, rfl⟩
    have hdig : ∀ c ∈ natChars (m + 1), isDigit c = true := by
      intro c hc
      exact isDigit_iff.mpr (natCharsAux_digits (m + 2) (m + 1) c hc)
    have hdnum : 48 ≤ d.toNat ∧ d.toNat ≤ 57 :=
      natCharsAux_digits (m + 2) (m + 1) d
        (by rw [show natCharsAux (m+2) (m+1) = natChars (m+1) from rfl, hnat]; simp)
    have hrest' : tailNotDigit rest := by
      cases rest with
      | nil => trivial
      | cons c r => exact h.1
    have hdg := parseDigits_run (natChars (m + 1)) 0 0 rest hdig hrest'
    rw [natChars_val] at hdg
    show parseIntNum (('-' :: natChars (m + 1)) ++ rest) = some (Int.negSucc m, rest)
    rw [List.cons_append]
    unfold parseIntNum
    simp only [eq_self_iff_true, if_true]
    rw [hdg]
    obtain ⟨L, hL⟩ : ∃ L, (natChars (m + 1)).length = L + 1 := by
      rw [hnat]; exact ⟨ds.length, by simp⟩
    rw [hL]
    simp only [Nat.zero_add]
    have hd0 : d ≠ '0' := by
      rcases (digit_ne_chars hdnum).2 with h48 | hne
      · exfalso
        have hz := natCharsAux_head_zero (m + 2) (m + 1) (by omega) (by omega) ds
        apply hz
        rw [show natCharsAux (m+2) (m+1) = natChars (m+1) from rfl, hnat]
        congr 1
        rw [char_eq_iff_toNat, h48]
        rfl
      · exact hne
    rw [hnat, List.cons_append]
    cases rest with
    | nil => simp [hd0, Int.negSucc_eq]
    | cons c r => simp [hd0, h.2.1, h.2.2.1, h.2.2.2, Int.negSucc_eq]

theorem parseStrBody_u (v : Nat) (hv : v < 32) (tail : List Char) :
    parseStrBody ('\\' :: 'u' :: '0' :: '0' :: hexDigit (v / 16) :: hexDigit (v % 16) :: tail)
      = consFst (Char.ofNat v) (parseStrBody tail) := by
  interval_cases v <;> rfl

theorem parseStrBody_escape : ∀ (cs rest : List Char),
    parseStrBody (cs.flatMap escapeChar ++ '"' :: rest) = some (cs, rest) := by
  intro cs
  induction cs with
  | nil =>
    intro rest
    rw [List.flatMap_nil, List.nil_append]
    conv_lhs => unfold parseStrBody
    rw [if_pos rfl]
  | cons c cs ih =>
    intro rest
    rw [List.flatMap_cons, List.append_assoc]
    by_cases h1 : c = '"'
    · subst h1
      rw [show escapeChar '"' = ['\\', '"'] from rfl]
      simp only [List.cons_append, List.nil_append]
      conv_lhs => unfold parseStrBody
      rw [if_neg (show ¬('\\' : Char) = '"' by decide), if_pos (rfl : ('\\' : Char) = '\\')]
      dsimp only
      rw [if_pos (rfl : ('"' : Char) = '"'), ih]
      rfl
    · by_cases h2 : c = '\\'
      · subst h2
        rw [show escapeChar '\\' = ['\\', '\\'] from rfl]
        simp only [List.cons_append, List.nil_append]
        conv_lhs => unfold parseStrBody
        rw [if_neg (show ¬('\\' : Char) = '"' by decide), if_pos (rfl : ('\\' : Char) = '\\')]
        dsimp only
        rw [if_neg (show ¬('\\' : Char) = '"' by decide), if_pos (rfl : ('\\' : Char) = '\\'), ih]
        rfl
      · by_cases h3 : c.toNat < 32
        · have he : escapeChar c = ['\\', 'u', '0', '0', hexDigit (c.toNat / 16), hexDigit (c.toNat % 16)] := by
            unfold escapeChar
            rw [if_neg h1, if_neg h2, if_pos h3]
          rw [he]
          simp only [List.cons_append, List.nil_append]
          rw [parseStrBody_u c.toNat h3, ih, char_ofNat_toNat]
          rfl
        · have he : escapeChar c = [c] := by
            unfold escapeChar
            rw [if_neg h1, if_neg h2, if_neg h3]
          rw [he]
          simp only [List.cons_append, List.nil_append]
          conv_lhs => unfold parseStrBody
          rw [if_neg h1, if_neg h2, if_neg h3, ih]
          rfl

theorem jsize_pos (v : Json) : 1 ≤ jsize v := by
  cases v with
  | null => simp [jsize]
  | bool b => simp [jsize]
  | num n => simp [jsize]
  | str s => simp [jsize]
  | arr l => cases l <;> simp [jsize] <;> omega
  | obj l => cases l <;> simp [jsize] <;> omega

theorem char_ne_of_toNat_ne {c c' : Char} (h : c.toNat ≠ c'.toNat) : c ≠ c' :=
  fun he => h (by rw [he])

theorem skipWs_cons_not (c : Char) (cs : List Char) (h : isJsonWs c = false) :
    skipWs (c :: cs) = c :: cs := by
  unfold skipWs
  rw [h]
  rfl

theorem skipWs_cons_ws (c : Char) (cs : List Char) (h : isJsonWs c = true) :
    skipWs (c :: cs) = skipWs cs := by
  conv_lhs => unfold skipWs
  rw [h]
  rfl

theorem parseValue_ws (fuel : Nat) (c : Char) (cs : List Char) (h : isJsonWs c = true) :
    parseValue fuel (c :: cs) = parseValue fuel cs := by
  cases fuel with
  | zero => rfl
  | succ g =>
    conv_lhs => unfold parseValue
    conv_rhs => unfold parseValue
    rw [skipWs_cons_ws c cs h]

theorem parseItems_ws (fuel : Nat) (c : Char) (cs : List Char) (acc : List Json)
    (h : isJsonWs c = true) :
    parseItems fuel (c :: cs) acc = parseItems fuel cs acc := by
  cases fuel with
  | zero => rfl
  | succ g =>
    conv_lhs => unfold parseItems
    conv_rhs => unfold parseItems
    rw [parseValue_ws g c cs h]

theorem parseMembers_ws (fuel : Nat) (c : Char) (cs : List Char)
    (acc : List (String × Json)) (h : isJsonWs c = true) :
    parseMembers fuel (c :: cs) acc = parseMembers fuel cs acc := by
  cases fuel with
  | zero => rfl
  | succ g =>
    conv_lhs => unfold parseMembers
    conv_rhs => unfold parseMembers
    rw [skipWs_cons_ws c cs h]

theorem goodNumRest_of_goodRest {r : List Char} (h : goodRest r) : goodNumRest r := by
  cases r with
  | nil => trivial
  | cons c t =>
    rcases h with h | h | h <;> subst h <;>
      exact ⟨by decide, by decide, by decide, by decide⟩

theorem skipWs_goodRest {r : List Char} (h : goodRest r) : skipWs r = r := by
  cases r with
  | nil => rfl
  | cons c t =>
    rcases h with h | h | h <;> subst h <;> exact skipWs_cons_not _ _ (by decide)

theorem escapeString_append (s : String) (rest : List Char) :
    escapeString s ++ rest = '"' :: (s.data.flatMap escapeChar ++ '"' :: rest) := by
  simp [escapeString]

theorem intChars_head (n : Int) :
    ∃ d ds, intChars n = d :: ds ∧ (d = '-' ∨ (48 ≤ d.toNat ∧ d.toNat ≤ 57)) := by
  cases n with
  | ofNat m =>
    obtain ⟨d, ds, h⟩ : ∃ d ds, natChars m = d :: ds := by
      cases hn : natChars m with
      | nil => exact absurd hn (natCharsAux_ne_nil (by omega))
      | cons d ds => exact ⟨d, ds, rfl⟩
    refine ⟨d, ds, h, Or.inr ?_⟩
    exact natCharsAux_digits (m + 1) m d (by rw [show natCharsAux (m+1) m = natChars m from rfl, h]; simp)
  | negSucc m => exact ⟨'-', natChars (m + 1), rfl, Or.inl rfl⟩

theorem digit_head_facts {d : Char} (h : 48 ≤ d.toNat ∧ d.toNat ≤ 57) :
    isJsonWs d = false ∧ d ≠ ']' ∧ d ≠ '"' ∧ d ≠ Char.ofNat 123 ∧ d ≠ '[' ∧
      d ≠ 't' ∧ d ≠ 'f' ∧ d ≠ 'n' := by
  have hws : isJsonWs d = false := by
    simp only [isJsonWs, Bool.or_eq_false_iff, decide_eq_false_iff_not]
    refine ⟨⟨⟨?_, ?_⟩, ?_⟩, ?_⟩ <;> apply char_ne_of_toNat_ne <;>
      simp only [Char.reduceToNat] <;> omega
  refine ⟨hws, ?_, ?_, ?_, ?_, ?_, ?_, ?_⟩ <;> apply char_ne_of_toNat_ne <;>
    first
      | (simp only [Char.reduceToNat]; omega)
      | (show d.toNat ≠ (Char.ofNat 123).toNat; rw [toNat_ofNat_small (by omega)]; omega)

theorem objInsert_fresh (k : String) (v : Json) : ∀ l : List (String × Json),
    k ∉ l.map Prod.fst → objInsert k v l = l ++ [(k, v)] := by
  intro l
  induction l with
  | nil => intro _; rfl
  | cons p rest ih =>
    intro h
    obtain ⟨k', v'⟩ := p
    simp only [List.map_cons, List.mem_cons] at h
    push_neg at h
    unfold objInsert
    rw [if_neg (Ne.symm h.1), ih h.2]
    rfl

theorem goodRest_arrTail (xs : List Json) (rest : List Char) :
    goodRest (dumpsArr xs ++ ']' :: rest) := by
  cases xs with
  | nil => exact Or.inr (Or.inl rfl)
  | cons x xs => exact Or.inl rfl

theorem goodRest_objTail (ms : List (String × Json)) (rest : List Char) :
    goodRest (dumpsObj ms ++ Char.ofNat 125 :: rest) := by
  cases ms with
  | nil => exact Or.inr (Or.inr rfl)
  | cons m ms => exact Or.inl rfl

theorem ofNat123_eq : Char.ofNat 123 = '\x7b' := rfl

theorem ofNat125_eq : Char.ofNat 125 = '\x7d' := rfl

theorem dumpsVal_head (v : Json) :
    ∃ c cs, dumpsVal v = c :: cs ∧ isJsonWs c = false ∧ c ≠ ']' := by
  cases v with
  | null => exact ⟨'n', _, rfl, by decide, by decide⟩
  | bool b =>
    cases b with
    | true => exact ⟨'t', _, rfl, by decide, by decide⟩
    | false => exact ⟨'f', _, rfl, by decide, by decide⟩
  | num n =>
    obtain ⟨d, ds, hd, hdisj⟩ := intChars_head n
    refine ⟨d, ds, by rw [show dumpsVal (.num n) = intChars n from rfl, hd], ?_, ?_⟩
    · rcases hdisj with h | h
      · subst h; decide
      · exact (digit_head_facts h).1
    · rcases hdisj with h | h
      · subst h; decide
      · exact (digit_head_facts h).2.1
  | str s => exact ⟨'"', s.data.flatMap escapeChar ++ ['"'], rfl, by decide, by decide⟩
  | arr l =>
    cases l with
    | nil => exact ⟨'[', _, rfl, by decide, by decide⟩
    | cons x xs => exact ⟨'[', _, rfl, by decide, by decide⟩
  | obj l =>
    cases l with
    | nil => exact ⟨Char.ofNat 123, _, rfl, by decide, by decide⟩
    | cons m ms => exact ⟨Char.ofNat 123, _, rfl, by decide, by decide⟩

/-- The serializer/parser round trip, proved by induction on parser fuel:
`parseValue` inverts `dumpsVal` on well-formed documents (with fuel at least
the document size), and correspondingly for array items and object members. -/
theorem parse_dumps : ∀ fuel : Nat,
    (∀ v rest, JsonWF v → jsize v ≤ fuel → goodRest rest →
        parseValue fuel (dumpsVal v ++ rest) = some (v, rest)) ∧
    (∀ x xs acc rest, JsonWF x → (∀ y ∈ xs, JsonWF y) →
        1 + jsize x + jsizeList xs ≤ fuel → goodRest rest →
        parseItems fuel (dumpsVal x ++ (dumpsArr xs ++ ']' :: rest)) acc
          = some (.arr (acc ++ x :: xs), rest)) ∧
    (∀ k mv ms acc rest, JsonWF mv → (∀ m ∈ ms, JsonWF m.2) →
        1 + jsize mv + jsizeMembers ms ≤ fuel → goodRest rest →
        ((acc ++ (k, mv) :: ms).map Prod.fst).Nodup →
        parseMembers fuel
            (escapeString k ++ ':' :: ' ' :: (dumpsVal mv ++ (dumpsObj ms ++ Char.ofNat 125 :: rest))) acc
          = some (.obj (acc ++ (k, mv) :: ms), rest)) := by
  intro fuel
  induction fuel with
  | zero =>
    refine ⟨?_, ?_, ?_⟩
    · intro v rest hwf hsz hr
      have := jsize_pos v
      omega
    · intro x xs acc rest _ _ hsz _
      omega
    · intro k mv ms acc rest _ _ hsz _ _
      omega
  | succ g ih =>
    obtain ⟨ih1, ih2, ih3⟩ := ih
    refine ⟨?_, ?_, ?_⟩
    · intro v rest hwf hsz hr
      cases hwf with
      | null =>
        show parseValue (g + 1) ('n' :: 'u' :: 'l' :: 'l' :: rest) = some (.null, rest)
        conv_lhs => unfold parseValue
        rw [skipWs_cons_not _ _ (by decide)]
        simp only [Char.reduceEq, if_neg, if_pos, ite_false, ite_true]
      | bool b =>
        cases b with
        | true =>
          show parseValue (g + 1) ('t' :: 'r' :: 'u' :: 'e' :: rest) = some (.bool true, rest)
          conv_lhs => unfold parseValue
          rw [skipWs_cons_not _ _ (by decide)]
          simp only [Char.reduceEq, if_neg, if_pos, ite_false, ite_true]
        | false =>
          show parseValue (g + 1) ('f' :: 'a' :: 'l' :: 's' :: 'e' :: rest)
            = some (.bool false, rest)
          conv_lhs => unfold parseValue
          rw [skipWs_cons_not _ _ (by decide)]
          simp only [Char.reduceEq, if_neg, if_pos, ite_false, ite_true]
      | num n =>
        obtain ⟨d, ds, hd, hdisj⟩ := intChars_head n
        have hf : isJsonWs d = false ∧ d ≠ '"' ∧ d ≠ Char.ofNat 123 ∧ d ≠ '[' ∧
            d ≠ 't' ∧ d ≠ 'f' ∧ d ≠ 'n' := by
          rcases hdisj with h | h
          · subst h
            exact ⟨by decide, by decide, by decide, by decide, by decide, by decide, by decide⟩
          · have hff := digit_head_facts h
            exact ⟨hff.1, hff.2.2.1, hff.2.2.2.1, hff.2.2.2.2.1, hff.2.2.2.2.2.1,
              hff.2.2.2.2.2.2.1, hff.2.2.2.2.2.2.2⟩
        rw [show dumpsVal (.num n) = intChars n from rfl, hd, List.cons_append]
        conv_lhs => unfold parseValue
        rw [skipWs_cons_not _ _ hf.1]
        dsimp only
        rw [if_neg hf.2.1, if_neg hf.2.2.1, if_neg hf.2.2.2.1, if_neg hf.2.2.2.2.1,
          if_neg hf.2.2.2.2.2.1, if_neg hf.2.2.2.2.2.2]
        rw [show d :: (ds ++ rest) = intChars n ++ rest from by rw [hd, List.cons_append]]
        rw [parseIntNum_intChars n rest (goodNumRest_of_goodRest hr)]
      | str s =>
        rw [show dumpsVal (.str s) = escapeString s from rfl, escapeString_append]
        conv_lhs => unfold parseValue
        rw [skipWs_cons_not _ _ (by decide)]
        dsimp only
        rw [if_pos rfl, parseStrBody_escape s.data rest]
      | arr elems helems =>
        cases elems with
        | nil =>
          show parseValue (g + 1) ('[' :: ']' :: rest) = some (.arr [], rest)
          conv_lhs => unfold parseValue
          rw [skipWs_cons_not _ _ (by decide)]
          dsimp only
          rw [if_neg (by decide), if_neg (by decide), if_pos rfl,
            skipWs_cons_not _ _ (by decide)]
          dsimp only
          rw [if_pos rfl]
        | cons x xs =>
          have hx : JsonWF x := helems x (List.mem_cons_self x xs)
          have hxs : ∀ y ∈ xs, JsonWF y := fun y hy => helems y (List.mem_cons_of_mem x hy)
          have hsz' : 1 + jsize x + jsizeList xs ≤ g := by
            simp only [jsize] at hsz
            omega
          rw [show dumpsVal (.arr (x :: xs)) = '[' :: dumpsVal x ++ dumpsArr xs ++ [']']
            from rfl]
          simp only [List.cons_append, List.append_assoc, List.singleton_append,
            List.nil_append]
          conv_lhs => unfold parseValue
          rw [skipWs_cons_not _ _ (by decide)]
          dsimp only
          rw [if_neg (by decide), if_neg (by decide), if_pos rfl]
          obtain ⟨c0, cs0, hx0, hx0ws, hx0rb⟩ := dumpsVal_head x
          rw [hx0, List.cons_append, skipWs_cons_not _ _ hx0ws]
          dsimp only
          rw [if_neg hx0rb, ← List.cons_append, ← hx0,
            ih2 x xs [] rest hx hxs hsz' hr, List.nil_append]
      | obj members hmem hkeys =>
        cases members with
        | nil =>
          show parseValue (g + 1) (Char.ofNat 123 :: Char.ofNat 125 :: rest)
            = some (.obj [], rest)
          conv_lhs => unfold parseValue
          rw [skipWs_cons_not _ _ (by decide)]
          dsimp only
          rw [if_neg (by decide), if_pos rfl, skipWs_cons_not _ _ (by decide)]
          dsimp only
          rw [if_pos rfl]
        | cons m ms =>
          obtain ⟨k, mv⟩ := m
          have hmv : JsonWF mv := hmem (k, mv) (List.mem_cons_self _ _)
          have hms : ∀ m ∈ ms, JsonWF m.2 := fun m hm => hmem m (List.mem_cons_of_mem _ hm)
          have hsz' : 1 + jsize mv + jsizeMembers ms ≤ g := by
            simp only [jsize] at hsz
            omega
          have hnd : (([] ++ (k, mv) :: ms).map Prod.fst).Nodup := by simpa using hkeys
          rw [show dumpsVal (.obj ((k, mv) :: ms))
                = Char.ofNat 123 :: (escapeString k ++ ':' :: ' ' :: dumpsVal mv)
                    ++ dumpsObj ms ++ [Char.ofNat 125] from rfl]
          simp only [List.cons_append, List.append_assoc, List.singleton_append,
            List.nil_append]
          conv_lhs => unfold parseValue
          rw [skipWs_cons_not _ _ (by decide)]
          dsimp only
          rw [if_neg (by decide), if_pos rfl,
            escapeString_append k
              (':' :: ' ' :: (dumpsVal mv ++ (dumpsObj ms ++ Char.ofNat 125 :: rest))),
            skipWs_cons_not _ _ (by decide)]
          dsimp only
          rw [if_neg (by decide), ← escapeString_append,
            ih3 k mv ms [] rest hmv hms hsz' hr hnd, List.nil_append]
    · intro x xs acc rest hwx hwxs hsz hr
      conv_lhs => unfold parseItems
      rw [ih1 x (dumpsArr xs ++ ']' :: rest) hwx (by omega) (goodRest_arrTail xs rest)]
      dsimp only
      rw [skipWs_goodRest (goodRest_arrTail xs rest)]
      cases xs with
      | nil =>
        rw [show dumpsArr ([] : List Json) = [] from rfl, List.nil_append]
        rfl
      | cons y ys =>
        have hy : JsonWF y := hwxs y (List.mem_cons_self y ys)
        have hys : ∀ z ∈ ys, JsonWF z := fun z hz => hwxs z (List.mem_cons_of_mem y hz)
        have hsz' : 1 + jsize y + jsizeList ys ≤ g := by
          simp only [jsizeList] at hsz
          have := jsize_pos x
          omega
        rw [show dumpsArr (y :: ys) = ',' :: ' ' :: dumpsVal y ++ dumpsArr ys from rfl]
        simp only [List.cons_append, List.append_assoc]
        show parseItems g (' ' :: (dumpsVal y ++ (dumpsArr ys ++ ']' :: rest))) (acc ++ [x])
          = some (.arr (acc ++ x :: y :: ys), rest)
        rw [parseItems_ws g ' ' _ _ (by decide),
          ih2 y ys (acc ++ [x]) rest hy hys hsz' hr]
        simp [List.append_assoc]
    · intro k mv ms acc rest hwmv hwms hsz hr hnd
      have hk : k ∉ acc.map Prod.fst := by
        have hnd' : (acc.map Prod.fst ++ k :: ms.map Prod.fst).Nodup := by simpa using hnd
        have hdisj := (List.nodup_append.mp hnd').2.2
        intro hmem2
        exact hdisj hmem2 (List.mem_cons_self _ _)
      rw [escapeString_append]
      conv_lhs => unfold parseMembers
      rw [skipWs_cons_not _ _ (by decide)]
      split
      · rename_i cs' hcs
        injection hcs with h1 h2
        subst h2
        rw [parseStrBody_escape k.data
          (':' :: ' ' :: (dumpsVal mv ++ (dumpsObj ms ++ Char.ofNat 125 :: rest)))]
        dsimp only
        rw [skipWs_cons_not _ _ (by decide)]
        split
        · rename_i afterColon hcolon
          injection hcolon with h3 h4
          subst h4
          rw [parseValue_ws g ' ' _ (by decide),
            ih1 mv (dumpsObj ms ++ Char.ofNat 125 :: rest) hwmv (by omega)
              (goodRest_objTail ms rest)]
          dsimp only
          rw [skipWs_goodRest (goodRest_objTail ms rest),
            show ({ data := k.data } : String) = k from rfl]
          cases ms with
          | nil =>
            rw [show dumpsObj ([] : List (String × Json)) = [] from rfl, List.nil_append]
            split
            · rename_i afterComma hcomma
              injection hcomma with h5 h6
              exact absurd h5 (by decide)
            · rename_i c r2 hcr
              injection hcr with h5 h6
              subst h5
              subst h6
              rw [if_pos rfl, objInsert_fresh k mv acc hk]
            · rename_i hnil
              exact absurd hnil (List.cons_ne_nil _ _)
          | cons m2 ms2 =>
            obtain ⟨k2, v2⟩ := m2
            have hw2 : JsonWF v2 := hwms (k2, v2) (List.mem_cons_self _ _)
            have hwms2 : ∀ m ∈ ms2, JsonWF m.2 := fun m hm =>
              hwms m (List.mem_cons_of_mem _ hm)
            have hsz2 : 1 + jsize v2 + jsizeMembers ms2 ≤ g := by
              simp only [jsizeMembers] at hsz
              have := jsize_pos mv
              omega
            have hnd2 : (((acc ++ [(k, mv)]) ++ (k2, v2) :: ms2).map Prod.fst).Nodup := by
              rw [List.append_assoc, List.singleton_append]
              exact hnd
            rw [show dumpsObj ((k2, v2) :: ms2)
                  = ',' :: ' ' :: escapeString k2 ++ ':' :: ' ' :: dumpsVal v2 ++ dumpsObj ms2
                from rfl]
            simp only [List.cons_append, List.append_assoc]
            show parseMembers g
                (' ' :: (escapeString k2 ++ ':' :: ' ' ::
                  (dumpsVal v2 ++ (dumpsObj ms2 ++ Char.ofNat 125 :: rest))))
                (objInsert k mv acc)
              = some (.obj (acc ++ (k, mv) :: (k2, v2) :: ms2), rest)
            rw [parseMembers_ws g ' ' _ _ (by decide), objInsert_fresh k mv acc hk,
              ih3 k2 v2 ms2 (acc ++ [(k, mv)]) rest hw2 hwms2 hsz2 hr hnd2,
              List.append_assoc, List.singleton_append]
        · rename_i hx hne
          exact absurd rfl (hne (' ' :: (dumpsVal mv ++ (dumpsObj ms ++ Char.ofNat 125 :: rest))))
      · rename_i hx hne
        exact absurd rfl
          (hne (k.data.flatMap escapeChar ++ '"' ::
            (':' :: ' ' :: (dumpsVal mv ++ (dumpsObj ms ++ Char.ofNat 125 :: rest)))))

mutual

theorem jsize_le_dumps : ∀ v : Json, jsize v ≤ (dumpsVal v).length
  | .null => by simp [jsize, dumpsVal]
  | .bool true => by simp [jsize, dumpsVal]
  | .bool false => by simp [jsize, dumpsVal]
  | .num n => by
    obtain ⟨d, ds, hd, _⟩ := intChars_head n
    simp only [jsize, dumpsVal, hd]
    simp
  | .str s => by
    simp [jsize, dumpsVal, escapeString]
  | .arr [] => by simp [jsize, dumpsVal]
  | .arr (x :: xs) => by
    have h1 := jsize_le_dumps x
    have h2 := jsizeList_le_dumpsArr xs
    simp only [jsize, dumpsVal]
    simp only [List.length_cons, List.length_append]
    omega
  | .obj [] => by simp [jsize, dumpsVal]
  | .obj (m :: ms) => by
    have h1 := jsize_le_dumps m.2
    have h2 := jsizeMembers_le_dumpsObj ms
    simp only [jsize, dumpsVal]
    simp only [List.length_cons, List.length_append]
    omega

theorem jsizeList_le_dumpsArr : ∀ xs : List Json, jsizeList xs ≤ (dumpsArr xs).length
  | [] => by simp [jsizeList, dumpsArr]
  | x :: xs => by
    have h1 := jsize_le_dumps x
    have h2 := jsizeList_le_dumpsArr xs
    simp only [jsizeList, dumpsArr]
    simp only [List.length_cons, List.length_append]
    omega

theorem jsizeMembers_le_dumpsObj :
    ∀ ms : List (String × Json), jsizeMembers ms ≤ (dumpsObj ms).length
  | [] => by simp [jsizeMembers, dumpsObj]
  | m :: ms => by
    have h1 := jsize_le_dumps m.2
    have h2 := jsizeMembers_le_dumpsObj ms
    simp only [jsizeMembers, dumpsObj]
    simp only [List.length_cons, List.length_append]
    omega

end

/-- `json.loads` inverts `json.dumps` on every well-formed document. -/
theorem json_loads_dumps (v : Json) (h : JsonWF v) : json_loads (json_dumps v) = some v := by
  have hlen : jsize v ≤ (dumpsVal v).length + 1 :=
    le_trans (jsize_le_dumps v) (Nat.le_succ _)
  have hp := (parse_dumps ((dumpsVal v).length + 1)).1 v [] h hlen trivial
  rw [List.append_nil] at hp
  have hd : (json_dumps v).data = dumpsVal v := rfl
  have hl : (json_dumps v).length = (dumpsVal v).length := rfl
  unfold json_loads
  rw [hl, hd, hp]
  rfl

theorem objInsert_wf (k : String) (v : Json) :
    ∀ l, (∀ m ∈ l, JsonWF m.2) → JsonWF v → ∀ m ∈ objInsert k v l, JsonWF m.2 := by
  intro l
  induction l with
  | nil =>
    intro _ hv m hm
    simp [objInsert] at hm
    subst hm
    exact hv
  | cons p rest ih =>
    intro hl hv m hm
    obtain ⟨k', v'⟩ := p
    unfold objInsert at hm
    by_cases hk : k' = k
    · rw [if_pos hk] at hm
      rcases List.mem_cons.mp hm with rfl | hm2
      · exact hv
      · exact hl _ (List.mem_cons_of_mem _ hm2)
    · rw [if_neg hk] at hm
      rcases List.mem_cons.mp hm with rfl | hm2
      · exact hl _ (List.mem_cons_self _ _)
      · exact ih (fun m hm => hl m (List.mem_cons_of_mem _ hm)) hv m hm2

theorem mem_fst_objInsert (k a : String) (v : Json) :
    ∀ l, a ∈ (objInsert k v l).map Prod.fst → a ∈ l.map Prod.fst ∨ a = k := by
  intro l
  induction l with
  | nil =>
    intro h
    simp [objInsert] at h
    exact Or.inr h
  | cons p rest ih =>
    obtain ⟨k', v'⟩ := p
    intro h
    unfold objInsert at h
    by_cases hk : k' = k
    · rw [if_pos hk] at h
      simp only [List.map_cons, List.mem_cons] at h ⊢
      rcases h with rfl | h
      · exact Or.inl (Or.inl rfl)
      · exact Or.inl (Or.inr h)
    · rw [if_neg hk] at h
      simp only [List.map_cons, List.mem_cons] at h ⊢
      rcases h with rfl | h
      · exact Or.inl (Or.inl rfl)
      · rcases ih h with h2 | h2
        · exact Or.inl (Or.inr h2)
        · exact Or.inr h2

theorem objInsert_nodup (k : String) (v : Json) :
    ∀ l, (l.map Prod.fst).Nodup → ((objInsert k v l).map Prod.fst).Nodup := by
  intro l
  induction l with
  | nil =>
    intro _
    simp [objInsert]
  | cons p rest ih =>
    obtain ⟨k', v'⟩ := p
    intro h
    simp only [List.map_cons, List.nodup_cons] at h
    unfold objInsert
    by_cases hk : k' = k
    · rw [if_pos hk]
      simp only [List.map_cons, List.nodup_cons]
      exact ⟨h.1, h.2⟩
    · rw [if_neg hk]
      simp only [List.map_cons, List.nodup_cons]
      refine ⟨?_, ih h.2⟩
      intro hmem
      rcases mem_fst_objInsert k k' v rest hmem with h2 | h2
      · exact h.1 h2
      · exact hk h2

/-- Everything the parser returns is well-formed: object keys are distinct at
every level, since member accumulation goes through `dict` insertion. -/
theorem parse_wf : ∀ fuel : Nat,
    (∀ cs v rest, parseValue fuel cs = some (v, rest) → JsonWF v) ∧
    (∀ cs acc v rest, (∀ a ∈ acc, JsonWF a) →
        parseItems fuel cs acc = some (v, rest) → JsonWF v) ∧
    (∀ cs acc v rest, (∀ m ∈ acc, JsonWF m.2) → (acc.map Prod.fst).Nodup →
        parseMembers fuel cs acc = some (v, rest) → JsonWF v) := by
  intro fuel
  induction fuel with
  | zero =>
    refine ⟨?_, ?_, ?_⟩
    · intro cs v rest h
      exact absurd h (by rw [show parseValue 0 cs = none from rfl]; simp)
    · intro cs acc v rest _ h
      exact absurd h (by rw [show parseItems 0 cs acc = none from rfl]; simp)
    · intro cs acc v rest _ _ h
      exact absurd h (by rw [show parseMembers 0 cs acc = none from rfl]; simp)
  | succ g ih =>
    obtain ⟨ih1, ih2, ih3⟩ := ih
    refine ⟨?_, ?_, ?_⟩
    · intro cs v rest h
      unfold parseValue at h
      split at h
      · exact absurd h (by simp)
      · split at h
        · split at h
          · simp only [Option.some.injEq, Prod.mk.injEq] at h
            obtain ⟨rfl, rfl⟩ := h
            exact JsonWF.str _
          · exact absurd h (by simp)
        · split at h
          · split at h
            · split at h
              · simp only [Option.some.injEq, Prod.mk.injEq] at h
                obtain ⟨rfl, rfl⟩ := h
                exact JsonWF.obj [] (by simp) (by simp)
              · exact ih3 _ [] v rest (by simp) (by simp) h
            · exact absurd h (by simp)
          · split at h
            · split at h
              · split at h
                · simp only [Option.some.injEq, Prod.mk.injEq] at h
                  obtain ⟨rfl, rfl⟩ := h
                  exact JsonWF.arr [] (by simp)
                · exact ih2 _ [] v rest (by simp) h
              · exact absurd h (by simp)
            · split at h
              · split at h
                · simp only [Option.some.injEq, Prod.mk.injEq] at h
                  obtain ⟨rfl, rfl⟩ := h
                  exact JsonWF.bool true
                · exact absurd h (by simp)
              · split at h
                · split at h
                  · simp only [Option.some.injEq, Prod.mk.injEq] at h
                    obtain ⟨rfl, rfl⟩ := h
                    exact JsonWF.bool false
                  · exact absurd h (by simp)
                · split at h
                  · split at h
                    · simp only [Option.some.injEq, Prod.mk.injEq] at h
                      obtain ⟨rfl, rfl⟩ := h
                      exact JsonWF.null
                    · exact absurd h (by simp)
                  · split at h
                    · simp only [Option.some.injEq, Prod.mk.injEq] at h
                      obtain ⟨rfl, rfl⟩ := h
                      exact JsonWF.num _
                    · exact absurd h (by simp)
    · intro cs acc v rest hacc h
      unfold parseItems at h
      split at h
      · rename_i v1 afterVal heq
        split at h
        · exact ih2 _ (acc ++ [v1]) v rest
            (by
              intro a ha
              rcases List.mem_append.mp ha with ha | ha
              · exact hacc a ha
              · simp at ha
                subst ha
                exact ih1 _ _ _ heq) h
        · simp only [Option.some.injEq, Prod.mk.injEq] at h
          obtain ⟨rfl, rfl⟩ := h
          refine JsonWF.arr _ ?_
          intro a ha
          rcases List.mem_append.mp ha with ha | ha
          · exact hacc a ha
          · simp at ha
            subst ha
            exact ih1 _ _ _ heq
        · exact absurd h (by simp)
      · exact absurd h (by simp)
    · intro cs acc v rest haccv haccn h
      unfold parseMembers at h
      split at h
      · split at h
        · split at h
          · split at h
            · rename_i v1 afterVal heq
              split at h
              · exact ih3 _ _ v rest
                  (objInsert_wf _ _ acc haccv (ih1 _ _ _ heq))
                  (objInsert_nodup _ _ acc haccn) h
              · split at h
                · simp only [Option.some.injEq, Prod.mk.injEq] at h
                  obtain ⟨rfl, rfl⟩ := h
                  exact JsonWF.obj _ (objInsert_wf _ _ acc haccv (ih1 _ _ _ heq))
                    (objInsert_nodup _ _ acc haccn)
                · exact absurd h (by simp)
              · exact absurd h (by simp)
            · exact absurd h (by simp)
          · exact absurd h (by simp)
        · exact absurd h (by simp)
      · exact absurd h (by simp)

/-- Every document `json.loads` returns is well-formed. -/
theorem json_loads_wf (s : String) (v : Json) (h : json_loads s = some v) : JsonWF v := by
  unfold json_loads at h
  split at h
  · rename_i w rest heq
    split at h
    · simp only [Option.some.injEq] at h
      subst h
      exact (parse_wf (s.length + 1)).1 _ _ _ heq
    · exact absurd h (by simp)
  · exact absurd h (by simp)

/-- Claim C1 — Round-trip law: for every plaintext and every password, sealing
under the key derived from (password, salt) and then opening under the key
derived from the same (password, salt) returns the original plaintext; at the
vault level, for every source file whose text parses as JSON,
`encrypt_credentials(source, password)` followed by
`decrypt_credentials(password)` under the same salt file returns the original
parsed dict. -/
theorem c1_roundtrip (base path text pw : String) (v : Json) (w : World)
    (hsrc : lookupFile path w.files = some (.raw (strBytes text)))
    (hjson : json_loads text = some v)
    (hbadS : base ++ ".salt" ∉ w.badPaths)
    (hbadE : base ∉ w.badPaths) :
    (∀ (pw' : String) (salt pt : List Nat) (nonce : Nat),
      fernetDecrypt (derive_key pw' salt)
        (fernetEncrypt (derive_key pw' salt) nonce pt) = some pt) ∧
    (encrypt_credentials (mkManager base) path (some pw) w).1 = true ∧
    (decrypt_credentials (mkManager base) (some pw)
        (encrypt_credentials (mkManager base) path (some pw) w).2).1 = some v := by
  have hne : (mkManager base).salt_file ≠ (mkManager base).encrypted_file :=
    salt_file_ne_encrypted_file base
  have hjson' : json_loads (stringOfCodes (strBytes text)) = some v := by
    rw [stringOfCodes_strBytes]; exact hjson
  obtain ⟨h1, hart, bs, hsaltW, hsd⟩ :=
    @encrypt_credentials_spec (mkManager base) path pw w (strBytes text) v hne hsrc hjson' hbadS hbadE
  have hround : json_loads (json_dumps v) = some v :=
    json_loads_dumps v (json_loads_wf text v hjson)
  refine ⟨fun pw' salt pt n => by simp [fernetDecrypt, fernetEncrypt], h1, ?_⟩
  exact decrypt_credentials_spec hart hsaltW hsd
    (by rw [stringOfCodes_strBytes]; exact hround)

/-- Witness for C1 at a concrete installation. -/
theorem c1_roundtrip_witness :
    lookupFile "credentials.json" c1World.files =
      some (.raw (strBytes "\x7b\"installed\": \x7b\"client_id\": \"abc123\", \"client_secret\": \"shh\"\x7d\x7d")) ∧
    json_loads "\x7b\"installed\": \x7b\"client_id\": \"abc123\", \"client_secret\": \"shh\"\x7d\x7d" = some c1Doc ∧
    json_loads (json_dumps c1Doc) = some c1Doc ∧
    (encrypt_credentials (mkManager "credentials.encrypted") "credentials.json"
      (some "correct-horse") c1World).1 = true ∧
    (decrypt_credentials (mkManager "credentials.encrypted") (some "correct-horse")
        (encrypt_credentials (mkManager "credentials.encrypted") "credentials.json"
          (some "correct-horse") c1World).2).1 = some c1Doc := by
  have h := c1_roundtrip "credentials.encrypted" "credentials.json"
    "\x7b\"installed\": \x7b\"client_id\": \"abc123\", \"client_secret\": \"shh\"\x7d\x7d"
    "correct-horse" c1Doc c1World (by rfl) (by rfl) (by decide) (by decide)
  exact ⟨by rfl, by rfl, by rfl, h.2.1, h.2.2⟩

/-- Claim C2 — For every artifact sealed under some password, calling
`decrypt_credentials` or `decrypt_token` with any password different from the
sealing one (different in the sense that matters to the cipher: its derived
key differs) fails with an authentication-failure result (`None`), and never
returns plaintext different from the sealed payload; the same failure arises
when the artifact bytes have been truncated or modified (are not a token
sealed under the key). -/
theorem c2_wrong_password (base pw pw' : String) (salt payload payloadT : List Nat)
    (nonce nonceT : Nat) (w : World)
    (hk : derive_key pw' salt ≠ derive_key pw salt)
    (hart : lookupFile (mkManager base).encrypted_file w.files =
      some (.fernetTok (derive_key pw salt) nonce payload))
    (hartT : lookupFile (tokenPath (mkManager base)) w.files =
      some (.fernetTok (derive_key pw salt) nonceT payloadT))
    (hsalt : lookupFile (mkManager base).salt_file w.files = some (.raw salt)) :
    (∀ (pt : List Nat) (n : Nat),
      fernetDecrypt (derive_key pw' salt)
        (fernetEncrypt (derive_key pw salt) n pt) = none) ∧
    (∀ b : Bytes, (∀ (n : Nat) (p : List Nat), b ≠ .fernetTok (derive_key pw salt) n p) →
      fernetDecrypt (derive_key pw salt) b = none) ∧
    (∀ (k p' : List Nat) (b : Bytes), fernetDecrypt k b = some p' →
      ∃ n : Nat, b = .fernetTok k n p') ∧
    (decrypt_credentials (mkManager base) (some pw') w).1 = none ∧
    (decrypt_token (mkManager base) (some pw') w).1 = none := by
  have hfd : ∀ (n : Nat) (p : List Nat),
      fernetDecrypt (derive_key pw' (bytesData (.raw salt)))
        (.fernetTok (derive_key pw salt) n p) = none := by
    intro n p
    simp [fernetDecrypt, bytesData, Ne.symm hk]
  refine ⟨?_, ?_, ?_, ?_, ?_⟩
  · intro pt n
    simp [fernetDecrypt, fernetEncrypt, Ne.symm hk]
  · intro b hb
    match b with
    | .raw d => simp [fernetDecrypt]
    | .fernetTok k n p =>
      simp only [fernetDecrypt, ite_eq_right_iff]
      intro hkk
      exact absurd (by rw [hkk]) (hb n p)
  · intro k p' b hfd'
    match b with
    | .raw d => simp [fernetDecrypt] at hfd'
    | .fernetTok k₂ n p =>
      simp only [fernetDecrypt] at hfd'
      by_cases hkk : k₂ = k
      · subst hkk
        simp at hfd'
        exact ⟨n, by rw [hfd']⟩
      · simp [hkk] at hfd'
  · exact (decrypt_credentials_auth_fail hart hsalt (hfd nonce payload)).1
  · exact (decrypt_token_auth_fail hartT hsalt (hfd nonceT payloadT)).1

/-- Witness for C2 at a concrete installation and wrong password. -/
theorem c2_wrong_password_witness :
    derive_key "wrong-password" [1, 2, 3, 4] ≠ derive_key "correct-horse" [1, 2, 3, 4] ∧
    (decrypt_credentials (mkManager "credentials.encrypted") (some "wrong-password")
      c2World).1 = none ∧
    (decrypt_token (mkManager "credentials.encrypted") (some "wrong-password")
      c2World).1 = none := by
  have hk : derive_key "wrong-password" [1, 2, 3, 4] ≠
      derive_key "correct-horse" [1, 2, 3, 4] := by decide
  have h := c2_wrong_password "credentials.encrypted" "correct-horse" "wrong-password"
    [1, 2, 3, 4] (strBytes "\x7b\x7d") [0, 1, 2] 7 8 c2World hk (by rfl) (by rfl) (by rfl)
  exact ⟨hk, h.2.2.2.1, h.2.2.2.2⟩

/-- Claim C3 — `_derive_key` equals the URL-safe base64 encoding of
PBKDF2-HMAC with SHA-256 core, exactly 100,000 iterations, producing 32 raw
bytes; it is a deterministic function of (password, salt): the same pair
always yields the same key (the function takes no other input — in
particular, no randomness). -/
theorem c3_derive_key (password : String) (salt : List Nat) :
    derive_key password salt =
      urlsafe_b64encode (pbkdf2hmac .sha256 32 100000 salt (strBytes password)) ∧
    (pbkdf2hmac .sha256 32 100000 salt (strBytes password)).length = 32 ∧
    (∀ (password₂ : String) (salt₂ : List Nat), password = password₂ → salt = salt₂ →
      derive_key password salt = derive_key password₂ salt₂) := by
  refine ⟨rfl, ?_, ?_⟩
  · simp [pbkdf2hmac]
  · intro p₂ s₂ hp hs
    rw [hp, hs]

/-- Witness for C3 at a concrete (password, salt) pair. -/
theorem c3_derive_key_witness :
    derive_key "correct-horse" [1, 2] =
      urlsafe_b64encode (pbkdf2hmac .sha256 32 100000 [1, 2] (strBytes "correct-horse")) ∧
    (pbkdf2hmac .sha256 32 100000 [1, 2] (strBytes "correct-horse")).length = 32 ∧
    derive_key "correct-horse" [1, 2] = derive_key "correct-horse" [1, 2] := by
  have h := c3_derive_key "correct-horse" [1, 2]
  exact ⟨h.1, h.2.1, h.2.2 "correct-horse" [1, 2] rfl rfl⟩

theorem freshBytes_length (n : Nat) (es : List (List Nat)) :
    (freshBytes n es).length = n := by
  unfold freshBytes
  cases es with
  | nil => simp
  | cons e rest => simp [List.length_take]

/-- After any call that found or created the sidecar file, later calls are
read-only and return the stored bytes. -/
theorem stepSalt_stable {m : CredentialManager} {w : World} {s : List Nat}
    (h : lookupFile m.salt_file w.files = some (.raw s)) :
    (stepSalt m w).1 = s ∧ (stepSalt m w).2.files = w.files := by
  unfold stepSalt
  rw [run_get_salt_read h]
  exact ⟨rfl, rfl⟩

/-- Claim C6 — Salt `getOrCreate` is idempotent: on a fresh installation the
first call generates 16 random bytes and writes them to the sidecar file, and
every subsequent call (any number of iterations, without deleting the sidecar
file) is read-only (leaves the filesystem unchanged) and returns byte-identical
salt every time. -/
theorem c6_salt_idempotent (base : String) (w : World)
    (hfresh : lookupFile (mkManager base).salt_file w.files = none)
    (hbad : (mkManager base).salt_file ∉ w.badPaths) :
    (stepSalt (mkManager base) w).1.length = 16 ∧
    lookupFile (mkManager base).salt_file (stepSalt (mkManager base) w).2.files =
      some (.raw (stepSalt (mkManager base) w).1) ∧
    (∀ n : Nat,
      (stepSalt (mkManager base) (iterSalt (mkManager base) n (stepSalt (mkManager base) w).2)).1 =
        (stepSalt (mkManager base) w).1 ∧
      (iterSalt (mkManager base) n (stepSalt (mkManager base) w).2).files =
        (stepSalt (mkManager base) w).2.files) := by
  have hstep : stepSalt (mkManager base) w = (freshBytes 16 w.saltEntropy,
      { w with
          saltEntropy := w.saltEntropy.tail,
          files := ((mkManager base).salt_file, .raw (freshBytes 16 w.saltEntropy)) ::
            eraseKey (mkManager base).salt_file w.files,
          log := (.info, "Generating new salt and saving to " ++ (mkManager base).salt_file)
            :: w.log }) := by
    unfold stepSalt
    rw [run_get_salt_create hfresh hbad]
  have hlook : lookupFile (mkManager base).salt_file (stepSalt (mkManager base) w).2.files =
      some (.raw (stepSalt (mkManager base) w).1) := by
    rw [hstep]
    simp
  refine ⟨by rw [hstep]; exact freshBytes_length 16 w.saltEntropy, hlook, ?_⟩
  intro n
  induction n with
  | zero =>
    exact ⟨(stepSalt_stable (by simpa using hlook)).1, rfl⟩
  | succ k ih =>
    have hlk : lookupFile (mkManager base).salt_file
        (iterSalt (mkManager base) k (stepSalt (mkManager base) w).2).files =
        some (.raw (stepSalt (mkManager base) w).1) := by
      rw [ih.2]
      exact hlook
    have hst := stepSalt_stable hlk
    refine ⟨?_, ?_⟩
    · show (stepSalt (mkManager base)
        ((stepSalt (mkManager base) (iterSalt (mkManager base) k (stepSalt (mkManager base) w).2)).2)).1 = _
      have hlk2 : lookupFile (mkManager base).salt_file
          ((stepSalt (mkManager base) (iterSalt (mkManager base) k
            (stepSalt (mkManager base) w).2)).2).files =
          some (.raw (stepSalt (mkManager base) w).1) := by
        rw [hst.2]
        exact hlk
      exact (stepSalt_stable hlk2).1
    · show ((stepSalt (mkManager base) (iterSalt (mkManager base) k
        (stepSalt (mkManager base) w).2)).2).files = _
      rw [hst.2, ih.2]

/-- Witness for C6 on a fresh installation. -/
theorem c6_salt_idempotent_witness :
    lookupFile (mkManager "credentials.encrypted").salt_file c6World.files = none ∧
    (stepSalt (mkManager "credentials.encrypted") c6World).1.length = 16 ∧
    (stepSalt (mkManager "credentials.encrypted")
      (iterSalt (mkManager "credentials.encrypted") 3
        (stepSalt (mkManager "credentials.encrypted") c6World).2)).1 =
      (stepSalt (mkManager "credentials.encrypted") c6World).1 := by
  have h := c6_salt_idempotent "credentials.encrypted" c6World (by rfl) (by decide)
  exact ⟨by rfl, h.1, (h.2.2 3).1⟩

/-- Claim C7 — `decrypt_token` on a fresh installation (no token artifact
present) returns `None` without raising, and this expected-absence case is
logged at info level — a strictly lower severity than the error level used for
other decryption failures such as a missing salt file or an authentication
failure. -/
theorem c7_token_absent (base : String) (pw : Option String) (pw₂ : String)
    (w wSalt wAuth : World) (art bs : Bytes)
    (hfresh : lookupFile (tokenPath (mkManager base)) w.files = none)
    (hart : lookupFile (tokenPath (mkManager base)) wSalt.files = some art)
    (hsalt : lookupFile (mkManager base).salt_file wSalt.files = none)
    (hartA : lookupFile (tokenPath (mkManager base)) wAuth.files = some art)
    (hsaltA : lookupFile (mkManager base).salt_file wAuth.files = some bs)
    (hfd : fernetDecrypt (derive_key pw₂ (bytesData bs)) art = none) :
    ((decrypt_token (mkManager base) pw w).1 = none ∧
      (decrypt_token (mkManager base) pw w).2.log.head? =
        some (.info, "Encrypted token file not found: " ++ tokenPath (mkManager base))) ∧
    ((decrypt_token (mkManager base) pw wSalt).1 = none ∧
      (decrypt_token (mkManager base) pw wSalt).2.log.head?.map Prod.fst =
        some .error) ∧
    ((decrypt_token (mkManager base) (some pw₂) wAuth).1 = none ∧
      (decrypt_token (mkManager base) (some pw₂) wAuth).2.log.head?.map Prod.fst =
        some .error) ∧
    LogLevel.info.severity < LogLevel.error.severity ∧
    LogLevel.debug.severity < LogLevel.error.severity := by
  refine ⟨?_, ?_, ?_, by decide, by decide⟩
  · rw [decrypt_token_missing_token hfresh pw]
    exact ⟨rfl, rfl⟩
  · rw [decrypt_token_missing_salt hart hsalt pw]
    exact ⟨rfl, rfl⟩
  · have h := decrypt_token_auth_fail hartA hsaltA hfd
    exact ⟨h.1, by rw [h.2.1]; rfl⟩

/-- Witness for C7 on concrete worlds for each failure class. -/
theorem c7_token_absent_witness :
    (decrypt_token (mkManager "credentials.encrypted") (some "pw") c7World).1 = none ∧
    (decrypt_token (mkManager "credentials.encrypted") (some "pw")
      c7World).2.log.head?.map Prod.fst = some LogLevel.info ∧
    (decrypt_token (mkManager "credentials.encrypted") (some "pw")
      c7WorldSalt).2.log.head?.map Prod.fst = some LogLevel.error ∧
    (decrypt_token (mkManager "credentials.encrypted") (some "pw")
      c7WorldAuth).2.log.head?.map Prod.fst = some LogLevel.error := by
  have h := c7_token_absent "credentials.encrypted" (some "pw") "pw"
    c7World c7WorldSalt c7WorldAuth (.raw [0]) (.raw [5, 6])
    (by rfl) (by rfl) (by rfl) (by rfl) (by rfl) (by rfl)
  exact ⟨h.1.1, by rw [h.1.2]; rfl, h.2.1.2, h.2.2.1.2⟩

/-- Claim C10 — When the expected artifact file (or the salt file) is missing,
`decrypt_credentials` and `decrypt_token` return `None` before the password is
ever requested or used: the result is `None` for every password argument
(supplied or to-be-prompted), and no interactive password prompt occurs (the
prompt count and the pending responses are untouched). -/
theorem c10_no_prompt (base : String) (w wS wT wTS : World) (art bs : Bytes)
    (hart : lookupFile (mkManager base).encrypted_file w.files = none)
    (hartS : lookupFile (mkManager base).encrypted_file wS.files = some art)
    (hsaltS : lookupFile (mkManager base).salt_file wS.files = none)
    (htok : lookupFile (tokenPath (mkManager base)) wT.files = none)
    (htokS : lookupFile (tokenPath (mkManager base)) wTS.files = some bs)
    (hsaltTS : lookupFile (mkManager base).salt_file wTS.files = none) :
    (∀ pw : Option String,
      (decrypt_credentials (mkManager base) pw w).1 = none ∧
      (decrypt_credentials (mkManager base) pw w).2.promptCount = w.promptCount ∧
      (decrypt_credentials (mkManager base) pw w).2.promptResponses = w.promptResponses) ∧
    (∀ pw : Option String,
      (decrypt_credentials (mkManager base) pw wS).1 = none ∧
      (decrypt_credentials (mkManager base) pw wS).2.promptCount = wS.promptCount ∧
      (decrypt_credentials (mkManager base) pw wS).2.promptResponses = wS.promptResponses) ∧
    (∀ pw : Option String,
      (decrypt_token (mkManager base) pw wT).1 = none ∧
      (decrypt_token (mkManager base) pw wT).2.promptCount = wT.promptCount ∧
      (decrypt_token (mkManager base) pw wT).2.promptResponses = wT.promptResponses) ∧
    (∀ pw : Option String,
      (decrypt_token (mkManager base) pw wTS).1 = none ∧
      (decrypt_token (mkManager base) pw wTS).2.promptCount = wTS.promptCount ∧
      (decrypt_token (mkManager base) pw wTS).2.promptResponses = wTS.promptResponses) := by
  refine ⟨?_, ?_, ?_, ?_⟩
  · intro pw
    rw [decrypt_credentials_missing_artifact hart pw]
    exact ⟨rfl, rfl, rfl⟩
  · intro pw
    rw [decrypt_credentials_missing_salt hartS hsaltS pw]
    exact ⟨rfl, rfl, rfl⟩
  · intro pw
    rw [decrypt_token_missing_token htok pw]
    exact ⟨rfl, rfl, rfl⟩
  · intro pw
    rw [decrypt_token_missing_salt htokS hsaltTS pw]
    exact ⟨rfl, rfl, rfl⟩

/-- Witness for C10: with the files missing, both a supplied and an omitted
password give `None` with the prompt stream untouched. -/
theorem c10_no_prompt_witness :
    (decrypt_credentials (mkManager "credentials.encrypted") none c10World).1 = none ∧
    (decrypt_credentials (mkManager "credentials.encrypted") none
      c10World).2.promptCount = 0 ∧
    (decrypt_credentials (mkManager "credentials.encrypted") (some "pw") c10WorldS).1 = none ∧
    (decrypt_token (mkManager "credentials.encrypted") none c10World).1 = none ∧
    (decrypt_token (mkManager "credentials.encrypted") none
      c10World).2.promptResponses = ["typed-password"] ∧
    (decrypt_token (mkManager "credentials.encrypted") (some "pw") c10WorldS).1 = none := by
  have h := c10_no_prompt "credentials.encrypted" c10World c10WorldS c10World c10WorldS
    (.raw [0]) (.raw [1]) (by rfl) (by rfl) (by rfl) (by rfl) (by rfl) (by rfl)
  exact ⟨(h.1 none).1, (h.1 none).2.1, (h.2.1 (some "pw")).1, (h.2.2.1 none).1,
    (h.2.2.1 none).2.2, (h.2.2.2 (some "pw")).1⟩

/-- Claim C8 — Temp-file lifecycle: if `decrypt_credentials` fails then
`create_temp_credentials_file` returns `None` and performs no filesystem
write; `create_temp_credentials_file` followed by `cleanup_temp_file` on the
returned path leaves no file at the temp path; `cleanup_temp_file` deletes the
path if it exists and swallows (does not propagate) deletion errors. -/
theorem c8_temp_lifecycle (base : String) (pw : Option String) (w : World) (v : Json) :
    ((decrypt_credentials (mkManager base) pw w).1 = none →
      (create_temp_credentials_file (mkManager base) pw w).1 = none ∧
      (create_temp_credentials_file (mkManager base) pw w).2.files = w.files) ∧
    ((decrypt_credentials (mkManager base) pw w).1 = some v →
      "temp_credentials.json" ∉ w.badPaths →
      (create_temp_credentials_file (mkManager base) pw w).1 =
        some "temp_credentials.json" ∧
      lookupFile "temp_credentials.json"
        (cleanup_temp_file "temp_credentials.json"
          (create_temp_credentials_file (mkManager base) pw w).2).files = none) ∧
    (∀ (p : String) (w' : World), p ∉ w'.badPaths →
      lookupFile p (cleanup_temp_file p w').files = none) ∧
    (∀ (p : String) (w' : World) (b : Bytes), p ∈ w'.badPaths →
      lookupFile p w'.files = some b →
      (cleanup_temp_file p w').files = w'.files ∧
      (cleanup_temp_file p w').log.head? =
        some (.error, "Failed to remove temporary file " ++ p)) := by
  refine ⟨?_, ?_, ?_, ?_⟩
  · intro hfail
    rw [create_temp_none hfail]
    exact ⟨rfl, (decrypt_credentials_frame (mkManager base) pw w).1⟩
  · intro hsucc hbadT
    have hframe := decrypt_credentials_frame (mkManager base) pw w
    have hbad' : "temp_credentials.json" ∉
        (decrypt_credentials (mkManager base) pw w).2.badPaths := by
      rw [hframe.2]; exact hbadT
    rw [create_temp_some hsucc hbad']
    constructor
    · rfl
    · apply cleanup_removes
      show "temp_credentials.json" ∉ (decrypt_credentials (mkManager base) pw w).2.badPaths
      exact hbad'
  · intro p w' hp
    exact cleanup_removes hp
  · intro p w' b hp hb
    exact cleanup_swallows hp hb

/-- Witness for C8: a successful materialize+cleanup, a failing decrypt, and a
swallowed deletion error, on concrete worlds. -/
theorem c8_temp_lifecycle_witness :
    (decrypt_credentials (mkManager "credentials.encrypted") (some "pw") c8WorldFail).1
      = none ∧
    (create_temp_credentials_file (mkManager "credentials.encrypted") (some "pw")
      c8WorldFail).1 = none ∧
    (decrypt_credentials (mkManager "credentials.encrypted") (some "pw") c8World).1 =
      some (.obj [("a", .num 1)]) ∧
    lookupFile "temp_credentials.json"
      (cleanup_temp_file "temp_credentials.json"
        (create_temp_credentials_file (mkManager "credentials.encrypted") (some "pw")
          c8World).2).files = none ∧
    (cleanup_temp_file "temp_credentials.json" c8WorldStuck).files =
      c8WorldStuck.files := by
  have h := c8_temp_lifecycle "credentials.encrypted" (some "pw") c8WorldFail
    (.obj [("a", .num 1)])
  have h2 := c8_temp_lifecycle "credentials.encrypted" (some "pw") c8World
    (.obj [("a", .num 1)])
  refine ⟨by rfl, (h.1 (by rfl)).1, by rfl, (h2.2.1 (by rfl) (by decide)).2, ?_⟩
  exact (h2.2.2.2 "temp_credentials.json" c8WorldStuck (.raw [1]) (by decide) (by rfl)).1

/-- Claim C9 — `encrypt_credentials` seals the `json.dumps` re-serialization
of the parsed source document, not the source file's raw bytes; consequently,
for every two source files whose texts parse to the same JSON value,
encrypting either (from otherwise identical states) produces the identical
artifact, decrypting yields the identical dict, and the byte-level formatting
of the original file is not preserved in the artifact. -/
theorem c9_seals_dumps (base path t₁ t₂ pw : String) (v : Json) (w : World)
    (hps : path ≠ (mkManager base).salt_file)
    (hjson₁ : json_loads t₁ = some v)
    (hjson₂ : json_loads t₂ = some v)
    (hbadS : base ++ ".salt" ∉ w.badPaths)
    (hbadE : base ∉ w.badPaths) :
    (lookupFile (mkManager base).encrypted_file
        (encrypt_credentials (mkManager base) path (some pw)
          { w with files := (path, .raw (strBytes t₁)) :: eraseKey path w.files }).2.files =
      some (.fernetTok
        (derive_key pw (saltOf (mkManager base)
          { w with files := (path, .raw (strBytes t₁)) :: eraseKey path w.files }))
        (currNonce w.nonceEntropy) (strBytes (json_dumps v)))) ∧
    (lookupFile (mkManager base).encrypted_file
        (encrypt_credentials (mkManager base) path (some pw)
          { w with files := (path, .raw (strBytes t₁)) :: eraseKey path w.files }).2.files =
      lookupFile (mkManager base).encrypted_file
        (encrypt_credentials (mkManager base) path (some pw)
          { w with files := (path, .raw (strBytes t₂)) :: eraseKey path w.files }).2.files) ∧
    ((decrypt_credentials (mkManager base) (some pw)
        (encrypt_credentials (mkManager base) path (some pw)
          { w with files := (path, .raw (strBytes t₁)) :: eraseKey path w.files }).2).1 =
      some v ∧
    (decrypt_credentials (mkManager base) (some pw)
        (encrypt_credentials (mkManager base) path (some pw)
          { w with files := (path, .raw (strBytes t₂)) :: eraseKey path w.files }).2).1 =
      some v) := by
  have hne : (mkManager base).salt_file ≠ (mkManager base).encrypted_file :=
    salt_file_ne_encrypted_file base
  have hsrc₁ : lookupFile path
      ({ w with files := (path, .raw (strBytes t₁)) :: eraseKey path w.files } : World).files =
      some (.raw (strBytes t₁)) := by simp
  have hsrc₂ : lookupFile path
      ({ w with files := (path, .raw (strBytes t₂)) :: eraseKey path w.files } : World).files =
      some (.raw (strBytes t₂)) := by simp
  have hj₁ : json_loads (stringOfCodes (strBytes t₁)) = some v := by
    rw [stringOfCodes_strBytes]; exact hjson₁
  have hj₂ : json_loads (stringOfCodes (strBytes t₂)) = some v := by
    rw [stringOfCodes_strBytes]; exact hjson₂
  obtain ⟨e₁ok, e₁art, bs₁, e₁salt, e₁sd⟩ :=
    @encrypt_credentials_spec (mkManager base) path pw _ (strBytes t₁) v hne hsrc₁ hj₁ hbadS hbadE
  obtain ⟨e₂ok, e₂art, bs₂, e₂salt, e₂sd⟩ :=
    @encrypt_credentials_spec (mkManager base) path pw _ (strBytes t₂) v hne hsrc₂ hj₂ hbadS hbadE
  have hsaltEq : saltOf (mkManager base)
      { w with files := (path, .raw (strBytes t₁)) :: eraseKey path w.files } =
      saltOf (mkManager base)
      { w with files := (path, .raw (strBytes t₂)) :: eraseKey path w.files } := by
    unfold saltOf
    simp [hps]
  have hround : json_loads (json_dumps v) = some v :=
    json_loads_dumps v (json_loads_wf t₁ v hjson₁)
  refine ⟨e₁art, ?_, ?_, ?_⟩
  · rw [e₁art, e₂art, hsaltEq]
  · exact decrypt_credentials_spec e₁art e₁salt e₁sd
      (by rw [stringOfCodes_strBytes]; exact hround)
  · exact decrypt_credentials_spec e₂art e₂salt e₂sd
      (by rw [stringOfCodes_strBytes]; exact hround)

/-- Witness for C9: two differently formatted source texts with the same
parsed value produce the identical artifact and the identical decrypted
dict. -/
theorem c9_seals_dumps_witness :
    json_loads " \x7b \"a\" : 1 \x7d " = some (.obj [("a", .num 1)]) ∧
    json_loads "\x7b\"a\":1\x7d" = some (.obj [("a", .num 1)]) ∧
    " \x7b \"a\" : 1 \x7d " ≠ "\x7b\"a\":1\x7d" ∧
    lookupFile "credentials.encrypted"
        (encrypt_credentials (mkManager "credentials.encrypted") "credentials.json"
          (some "pw") c9W1).2.files =
      lookupFile "credentials.encrypted"
        (encrypt_credentials (mkManager "credentials.encrypted") "credentials.json"
          (some "pw") c9W2).2.files ∧
    (decrypt_credentials (mkManager "credentials.encrypted") (some "pw")
        (encrypt_credentials (mkManager "credentials.encrypted") "credentials.json"
          (some "pw") c9W1).2).1 = some (.obj [("a", .num 1)]) := by
  have h := c9_seals_dumps "credentials.encrypted" "credentials.json"
    " \x7b \"a\" : 1 \x7d " "\x7b\"a\":1\x7d" "pw" (.obj [("a", .num 1)]) c9Base
    (by decide) (by rfl) (by rfl) (by decide) (by decide)
  exact ⟨by rfl, by rfl, by decide, h.2.1, h.2.2.1⟩

theorem isPrefixOf_append_self (l r : List Char) : l.isPrefixOf (l ++ r) = true := by
  induction l with
  | nil => simp [List.isPrefixOf]
  | cons c cs ih => simp [List.isPrefixOf, ih]

theorem isPrefixOf_self (l : List Char) : l.isPrefixOf l = true := by
  have := isPrefixOf_append_self l []
  simpa using this

theorem listReplaceAux_nil (pat rep : List Char) (fuel : Nat) :
    listReplaceAux pat rep fuel [] = [] := by
  cases fuel <;> rfl

/-- A string that ends in the (nonempty) pattern contains at least one
occurrence. -/
theorem countOccurAux_endsWith (pat : List Char) (hp : pat ≠ []) :
    ∀ (fuel : Nat) (t : List Char), (t ++ pat).length ≤ fuel →
      1 ≤ countOccurAux pat fuel (t ++ pat) := by
  intro fuel
  induction fuel with
  | zero =>
    intro t hlen
    exfalso
    have h1 : 0 < pat.length := List.length_pos.mpr hp
    rw [List.length_append] at hlen
    omega
  | succ fuel ih =>
    intro t hlen
    cases t with
    | nil =>
      rw [List.nil_append]
      obtain ⟨c, cs, rfl⟩ := List.exists_cons_of_ne_nil hp
      simp only [countOccurAux, isPrefixOf_self, if_true]
      omega
    | cons c t' =>
      rw [List.cons_append]
      simp only [countOccurAux]
      by_cases hpre : pat.isPrefixOf (c :: (t' ++ pat)) = true
      · rw [if_pos hpre]
        omega
      · rw [if_neg (by simp [hpre])]
        apply ih
        simp only [List.length_cons, List.length_append] at hlen
        simp only [List.length_append]
        omega

/-- When the pattern occurs exactly once, as the final suffix, `str.replace`
rewrites exactly that suffix. -/
theorem listReplaceAux_single (pat rep : List Char) (hp : pat ≠ []) (hbf : borderFree pat) :
    ∀ (fuel : Nat) (t : List Char), (t ++ pat).length ≤ fuel →
      countOccurAux pat fuel (t ++ pat) = 1 →
      listReplaceAux pat rep fuel (t ++ pat) = t ++ rep := by
  intro fuel
  induction fuel with
  | zero =>
    intro t hlen hc
    exfalso
    have h1 : 0 < pat.length := List.length_pos.mpr hp
    rw [List.length_append] at hlen
    omega
  | succ fuel ih =>
    intro t hlen hcount
    cases t with
    | nil =>
      rw [List.nil_append] at hcount ⊢
      obtain ⟨c, cs, hpat⟩ := List.exists_cons_of_ne_nil hp
      subst hpat
      simp only [listReplaceAux, isPrefixOf_self, if_true]
      have hdrop : List.drop ((c :: cs).length - 1) cs = [] := by
        simp [List.drop_length]
      rw [hdrop, listReplaceAux_nil]
      simp
    | cons c t' =>
      rw [List.cons_append] at hlen hcount ⊢
      by_cases hpre : pat.isPrefixOf (c :: (t' ++ pat)) = true
      · exfalso
        obtain ⟨u, hu⟩ := List.isPrefixOf_iff_prefix.mp hpre
        have h1 : 0 < pat.length := List.length_pos.mpr hp
        by_cases hk : t'.length + 1 < pat.length
        · -- an overlapping occurrence would force a border of the pattern
          have hulen : pat.length + u.length = t'.length + 1 + pat.length := by
            have := congrArg List.length hu
            simp only [List.length_append, List.length_cons] at this
            omega
          have hu' : pat ++ u = (c :: t') ++ pat := by
            rw [hu]
            simp
          set k := t'.length + 1 with hkdef
          have hklen : k ≤ pat.length := by omega
          have hct : pat.take k = c :: t' := by
            have h₁ := congrArg (List.take k) hu'
            rw [List.take_append_of_le_length hklen] at h₁
            have h₂ : ((c :: t') ++ pat).take k = c :: t' := by
              have := List.take_left (c :: t') pat
              simpa [hkdef] using this
            rw [h₂] at h₁
            exact h₁
          have hdp : pat.drop k ++ u = pat := by
            have h₁ := congrArg (List.drop k) hu'
            rw [List.drop_append_of_le_length hklen] at h₁
            have h₂ : ((c :: t') ++ pat).drop k = pat := by
              have := List.drop_left (c :: t') pat
              simpa [hkdef] using this
            rw [h₂] at h₁
            exact h₁
          have hborder : pat.take (pat.length - k) = pat.drop k := by
            have h₁ := congrArg (List.take (pat.length - k)) hdp
            rw [List.take_left' (by simp)] at h₁
            exact h₁.symm
          exact hbf k (by omega) (by omega) hborder
        · -- a second, non-overlapping occurrence would make the count exceed 1
          simp only [countOccurAux, hpre, if_true] at hcount
          have hrem : List.drop (pat.length - 1) (t' ++ pat) =
              List.drop (pat.length - 1) t' ++ pat :=
            List.drop_append_of_le_length (by omega)
          rw [hrem] at hcount
          have hge := countOccurAux_endsWith pat hp fuel (List.drop (pat.length - 1) t')
            (by
              rw [List.length_append]
              have : (List.drop (pat.length - 1) t').length = t'.length - (pat.length - 1) := by
                simp
              simp only [List.length_cons, List.length_append] at hlen
              omega)
          omega
      · simp only [listReplaceAux, countOccurAux, hpre, Bool.false_eq_true, if_false]
          at hcount ⊢
        rw [ih t' (by simp only [List.length_cons, List.length_append] at hlen ⊢; omega) hcount]
        rw [List.cons_append]

theorem encrypt_token_spec {m : CredentialManager} {pw : String} {w : World}
    {td : List Nat}
    (hne : m.salt_file ≠ tokenPath m)
    (hbadS : m.salt_file ∉ w.badPaths)
    (hbadT : tokenPath m ∉ w.badPaths) :
    (encrypt_token m td (some pw) w).1 = true ∧
    lookupFile (tokenPath m) (encrypt_token m td (some pw) w).2.files =
      some (.fernetTok (derive_key pw (saltOf m w)) (currNonce w.nonceEntropy) td) ∧
    (∃ bs, lookupFile m.salt_file (encrypt_token m td (some pw) w).2.files = some bs ∧
      bytesData bs = saltOf m w) := by
  unfold encrypt_token encrypt_token_body saltOf
  cases hsalt : lookupFile m.salt_file w.files with
  | some bs =>
    simp only [run_bind_assoc, run_bind_obtainPassword_some, run_bind_logMsg,
      run_bind_get_salt, run_bind_nextNonce, run_bind_writeFileB, run_bind_pure, run_pure,
      hsalt, fernetEncrypt, popNonce, popSaltEntropy]
    simp [hbadT, hne, Ne.symm hne, hsalt]
  | none =>
    simp only [run_bind_assoc, run_bind_obtainPassword_some, run_bind_logMsg,
      run_bind_get_salt, run_bind_nextNonce, run_bind_writeFileB, run_bind_pure, run_pure,
      hsalt, fernetEncrypt, popNonce, popSaltEntropy]
    simp [hbadS, hbadT, hne, Ne.symm hne, bytesData]

/-- Claim C5 (counterexample) — the claim quantifies over every base path,
but for a base without the `.encrypted` suffix (here `creds.bin`) the
`str.replace` call substitutes nothing: the token-artifact path equals the
credentials-artifact path instead of being distinct. -/
theorem c5_token_path_counterexample :
    tokenPath (mkManager "creds.bin") = (mkManager "creds.bin").encrypted_file ∧
    (mkManager "creds.bin").encrypted_file = "creds.bin" := by
  constructor <;> rfl

/-- Claim C5 (amended) — for every base path that ends in `.encrypted` and
contains exactly one occurrence of `.encrypted`, the token artifact path is
the base with that suffix replaced by `_token.encrypted`, which is distinct
from the credentials-artifact path (the base itself); `encrypt_token` and
`decrypt_token` agree on this path: a token sealed by `encrypt_token` is the
one `decrypt_token` opens. -/
theorem c5_token_path (base stem : String)
    (hsuffix : base.data = stem.data ++ ".encrypted".data)
    (honce : countOccur ".encrypted".data base.data = 1) :
    tokenPath (mkManager base) = ⟨stem.data ++ "_token.encrypted".data⟩ ∧
    tokenPath (mkManager base) ≠ (mkManager base).encrypted_file ∧
    (∀ (w : World) (pw : String) (td : List Nat),
      (mkManager base).salt_file ∉ w.badPaths →
      tokenPath (mkManager base) ∉ w.badPaths →
      (encrypt_token (mkManager base) td (some pw) w).1 = true ∧
      (decrypt_token (mkManager base) (some pw)
        (encrypt_token (mkManager base) td (some pw) w).2).1 = some td) := by
  have hp : ".encrypted".data ≠ ([] : List Char) := by decide
  have hbf : borderFree ".encrypted".data := by
    intro k hk hk0
    have hlen : (".encrypted".data).length = 10 := by decide
    rw [hlen] at hk
    interval_cases k <;> decide
  have hrepl : tokenPath (mkManager base) = ⟨stem.data ++ "_token.encrypted".data⟩ := by
    show (⟨listReplace ".encrypted".data "_token.encrypted".data base.data⟩ : String) = _
    rw [hsuffix]
    unfold listReplace
    rw [listReplaceAux_single ".encrypted".data "_token.encrypted".data hp hbf
      (stem.data ++ ".encrypted".data).length stem.data (le_refl _)
      (by rw [← hsuffix]; exact honce)]
  have hlen : ∀ s : String, tokenPath (mkManager base) ≠ s →
      True := fun _ _ => trivial
  have hne : tokenPath (mkManager base) ≠ (mkManager base).encrypted_file := by
    rw [hrepl]
    intro hcontra
    have hdata : stem.data ++ "_token.encrypted".data = base.data := by
      have := congrArg String.data hcontra
      exact this
    rw [hsuffix] at hdata
    have := congrArg List.length hdata
    simp at this
  have hneSalt : (mkManager base).salt_file ≠ tokenPath (mkManager base) := by
    rw [hrepl]
    intro hcontra
    have hdata := congrArg String.data hcontra
    have hsData : ((mkManager base).salt_file).data = base.data ++ ".salt".data := by
      show (base ++ ".salt").data = _
      simp [String.data_append]
    rw [hsData, hsuffix] at hdata
    have := congrArg List.length hdata
    simp at this
  refine ⟨hrepl, hne, ?_⟩
  intro w pw td hbadS hbadT
  obtain ⟨hok, hart, bs, hsalt, hsd⟩ :=
    @encrypt_token_spec (mkManager base) pw w td hneSalt hbadS hbadT
  exact ⟨hok, decrypt_token_spec hart hsalt hsd⟩

/-- Witness for the amended C5 at the default base path. -/
theorem c5_token_path_witness :
    "credentials.encrypted".data = "credentials".data ++ ".encrypted".data ∧
    countOccur ".encrypted".data "credentials.encrypted".data = 1 ∧
    tokenPath (mkManager "credentials.encrypted") = "credentials_token.encrypted" ∧
    tokenPath (mkManager "credentials.encrypted") ≠ "credentials.encrypted" ∧
    (encrypt_token (mkManager "credentials.encrypted") [1, 2, 3] (some "pw") c5World).1 =
      true ∧
    (decrypt_token (mkManager "credentials.encrypted") (some "pw")
      (encrypt_token (mkManager "credentials.encrypted") [1, 2, 3] (some "pw")
        c5World).2).1 = some [1, 2, 3] := by
  have h := c5_token_path "credentials.encrypted" "credentials" (by decide) (by decide)
  have hrt := h.2.2 c5World "pw" [1, 2, 3] (by decide) (by decide)
  exact ⟨by decide, by decide, by rw [h.1]; decide, h.2.1, hrt.1, hrt.2⟩

theorem logMono_pure {α : Type} (a : α) : LogMono (pure a : PyM α) :=
  fun w => ⟨[], by simp [run_pure, resultState]⟩

theorem logMono_throw {α : Type} (e : PyErr) : LogMono (throw e : PyM α) :=
  fun w => ⟨[], by simp [run_throw, resultState]⟩

theorem logMono_bind {α β : Type} {x : PyM α} {f : α → PyM β}
    (hx : LogMono x) (hf : ∀ a, LogMono (f a)) : LogMono (x >>= f) := by
  intro w
  cases hr : x.run w with
  | ok a w₁ =>
    obtain ⟨l₁, h₁⟩ := hx w
    rw [hr] at h₁
    obtain ⟨l₂, h₂⟩ := hf a w₁
    rw [run_bind_ok hr]
    refine ⟨l₂ ++ l₁, ?_⟩
    rw [h₂, show (resultState (EStateM.Result.ok a w₁) : World) = w₁ from rfl] at *
    rw [h₁, List.append_assoc]
  | error e w₁ =>
    obtain ⟨l₁, h₁⟩ := hx w
    rw [hr] at h₁
    rw [run_bind_error hr]
    exact ⟨l₁, h₁⟩

theorem logMono_logMsg (lvl : LogLevel) (msg : String) : LogMono (logMsg lvl msg) :=
  fun w => ⟨[(lvl, msg)], by simp [run_logMsg, resultState]⟩

theorem logMono_pathExists (p : String) : LogMono (pathExists p) :=
  fun w => ⟨[], by simp [run_pathExists, resultState]⟩

theorem logMono_readFileB (p : String) : LogMono (readFileB p) := by
  intro w
  cases h : lookupFile p w.files with
  | some b => exact ⟨[], by simp [run_readFileB_ok h, resultState]⟩
  | none => exact ⟨[], by simp [run_readFileB_missing h, resultState]⟩

theorem logMono_writeFileB (p : String) (b : Bytes) : LogMono (writeFileB p b) := by
  intro w
  by_cases h : p ∈ w.badPaths
  · exact ⟨[], by simp [run_writeFileB_bad b h, resultState]⟩
  · exact ⟨[], by simp [run_writeFileB_ok b h, resultState]⟩

theorem logMono_osRemove (p : String) : LogMono (osRemove p) := by
  intro w
  refine ⟨[], ?_⟩
  rw [run_osRemove]
  by_cases h : p ∈ w.badPaths
  · simp [h, resultState]
  · by_cases hex : (lookupFile p w.files).isSome = true
    · simp [h, hex, resultState]
    · simp [h, hex, resultState]

theorem logMono_osUrandom (n : Nat) : LogMono (osUrandom n) :=
  fun w => ⟨[], by simp [run_osUrandom, resultState, popSaltEntropy]⟩

theorem logMono_nextNonce : LogMono nextNonce :=
  fun w => ⟨[], by simp [run_nextNonce, resultState, popNonce]⟩

theorem logMono_getpassPrompt (p : String) : LogMono (getpassPrompt p) :=
  fun w => ⟨[], by simp [run_getpassPrompt, resultState, popPrompt]⟩

theorem logMono_obtainPassword (pw : Option String) (prompt : String) :
    LogMono (obtainPassword pw prompt) := by
  cases pw with
  | some p => exact logMono_pure p
  | none => exact logMono_getpassPrompt prompt

theorem run_bind_pure_id {α : Type} (x : PyM α) (w : World) :
    (x >>= pure).run w = x.run w := by
  show EStateM.bind x pure w = x w
  unfold EStateM.bind
  cases x w <;> rfl

theorem logMono_get_salt (m : CredentialManager) : LogMono (get_salt m) := by
  intro w
  cases h : lookupFile m.salt_file w.files with
  | some b =>
    exact ⟨[(.debug, "Loading existing salt from " ++ m.salt_file)],
      by simp [run_get_salt_read h, resultState]⟩
  | none =>
    refine ⟨[(.info, "Generating new salt and saving to " ++ m.salt_file)], ?_⟩
    rw [show (get_salt m).run w = (get_salt m >>= pure).run w from
      (run_bind_pure_id _ w).symm, run_bind_get_salt, h]
    by_cases hbad : m.salt_file ∈ w.badPaths
    · simp [hbad, resultState]
    · simp [hbad, resultState, run_pure]

theorem failsLogged_pure_ok {α : Type} {bad : α → Prop} (a : α) (h : ¬ bad a) :
    FailsLogged bad (pure a : PyM α) := by
  intro w b w₁ hrun hbad
  rw [run_pure] at hrun
  injection hrun with h1 h2
  subst h1
  exact absurd hbad h

theorem failsLogged_throw {α : Type} {bad : α → Prop} (e : PyErr) :
    FailsLogged bad (throw e : PyM α) := by
  intro w a w₁ hrun hbad
  rw [run_throw] at hrun
  simp at hrun

theorem failsLogged_bind {α β : Type} {x : PyM α} {f : α → PyM β} {bad : β → Prop}
    (hx : LogMono x) (hf : ∀ a, FailsLogged bad (f a)) : FailsLogged bad (x >>= f) := by
  intro w b w₁ hrun hbad
  cases hr : x.run w with
  | ok a w₂ =>
    rw [run_bind_ok hr] at hrun
    have h2 := hf a w₂ b w₁ hrun hbad
    obtain ⟨l, hl⟩ := hx w
    rw [hr] at hl
    simp only [resultState] at hl
    have : w₂.log.length = l.length + w.log.length := by
      rw [hl, List.length_append]
    omega
  | error e w₂ =>
    rw [run_bind_error hr] at hrun
    simp at hrun

theorem failsLogged_after_grows {α β : Type} {x : PyM α} {k : α → PyM β} {bad : β → Prop}
    (hx : LogGrows x) (hk : ∀ a, LogMono (k a)) : FailsLogged bad (x >>= k) := by
  intro w b w₁ hrun hbad
  cases hr : x.run w with
  | ok a w₂ =>
    rw [run_bind_ok hr] at hrun
    have hg := hx w
    rw [hr] at hg
    simp only [resultState] at hg
    obtain ⟨l, hl⟩ := hk a w₂
    rw [hrun] at hl
    simp only [resultState] at hl
    have : w₁.log.length = l.length + w₂.log.length := by
      rw [hl, List.length_append]
    omega
  | error e w₂ =>
    rw [run_bind_error hr] at hrun
    simp at hrun

theorem logGrows_logMsg (lvl : LogLevel) (msg : String) : LogGrows (logMsg lvl msg) := by
  intro w
  simp [run_logMsg, resultState]

theorem logGrows_get_salt (m : CredentialManager) : LogGrows (get_salt m) := by
  intro w
  cases h : lookupFile m.salt_file w.files with
  | some b =>
    rw [run_get_salt_read h]
    simp [resultState]
  | none =>
    rw [show (get_salt m).run w = (get_salt m >>= pure).run w from
      (run_bind_pure_id _ w).symm, run_bind_get_salt, h]
    by_cases hbad : m.salt_file ∈ w.badPaths
    · simp [hbad, resultState]
    · simp [hbad, resultState, run_pure]

theorem logMono_pure_bind {α β : Type} {a : α} {f : α → PyM β} (h : LogMono (f a)) :
    LogMono ((pure a : PyM α) >>= f) := by
  intro w
  rw [show ((pure a : PyM α) >>= f).run w = (f a).run w from run_bind_pure a f w]
  exact h w

theorem logMono_throw_bind {α β : Type} {e : PyErr} {f : α → PyM β} :
    LogMono ((throw e : PyM α) >>= f) := by
  intro w
  rw [run_bind_throw]
  exact ⟨[], rfl⟩

theorem failsLogged_pure_bind {α β : Type} {a : α} {f : α → PyM β} {bad : β → Prop}
    (h : FailsLogged bad (f a)) : FailsLogged bad ((pure a : PyM α) >>= f) := by
  intro w b w₁ hrun hbad
  rw [show ((pure a : PyM α) >>= f).run w = (f a).run w from run_bind_pure a f w] at hrun
  exact h w b w₁ hrun hbad

theorem failsLogged_throw_bind {α β : Type} {e : PyErr} {f : α → PyM β} {bad : β → Prop} :
    FailsLogged bad ((throw e : PyM α) >>= f) := by
  intro w b w₁ hrun hbad
  rw [run_bind_throw] at hrun
  simp at hrun

theorem logMono_encrypt_body (m : CredentialManager) (path : String) (pw : Option String) :
    LogMono (encrypt_credentials_body m path pw) := by
  unfold encrypt_credentials_body
  apply logMono_bind (logMono_pathExists _)
  intro b
  split
  · exact logMono_bind (logMono_logMsg _ _) (fun _ => logMono_pure _)
  · apply logMono_bind (logMono_obtainPassword _ _)
    intro pwv
    apply logMono_bind (logMono_logMsg _ _)
    intro _
    apply logMono_bind (logMono_readFileB _)
    intro src
    dsimp only
    split
    · apply logMono_pure_bind
      apply logMono_bind (logMono_get_salt m)
      intro salt
      apply logMono_bind (logMono_logMsg _ _)
      intro _
      apply logMono_bind logMono_nextNonce
      intro nonce
      apply logMono_bind (logMono_logMsg _ _)
      intro _
      apply logMono_bind (logMono_writeFileB _ _)
      intro _
      exact logMono_bind (logMono_logMsg _ _) (fun _ => logMono_pure _)
    · exact logMono_throw_bind

theorem logMono_decrypt_body (m : CredentialManager) (pw : Option String) :
    LogMono (decrypt_credentials_body m pw) := by
  unfold decrypt_credentials_body
  apply logMono_bind (logMono_pathExists _)
  intro b
  split
  · exact logMono_bind (logMono_logMsg _ _) (fun _ => logMono_pure _)
  · apply logMono_bind (logMono_pathExists _)
    intro b₂
    split
    · exact logMono_bind (logMono_logMsg _ _) (fun _ => logMono_pure _)
    · apply logMono_bind (logMono_obtainPassword _ _)
      intro pwv
      apply logMono_bind (logMono_get_salt m)
      intro salt
      apply logMono_bind (logMono_logMsg _ _)
      intro _
      apply logMono_bind (logMono_readFileB _)
      intro art
      apply logMono_bind (logMono_logMsg _ _)
      intro _
      dsimp only
      split
      · apply logMono_pure_bind
        dsimp only
        split
        · apply logMono_pure_bind
          exact logMono_bind (logMono_logMsg _ _) (fun _ => logMono_pure _)
        · exact logMono_throw_bind
      · exact logMono_throw_bind

theorem logMono_encrypt_token_body (m : CredentialManager) (td : List Nat)
    (pw : Option String) : LogMono (encrypt_token_body m td pw) := by
  unfold encrypt_token_body
  apply logMono_bind (logMono_obtainPassword _ _)
  intro pwv
  apply logMono_bind (logMono_get_salt m)
  intro salt
  apply logMono_bind (logMono_logMsg _ _)
  intro _
  apply logMono_bind logMono_nextNonce
  intro nonce
  apply logMono_bind (logMono_logMsg _ _)
  intro _
  apply logMono_bind (logMono_writeFileB _ _)
  intro _
  exact logMono_bind (logMono_logMsg _ _) (fun _ => logMono_pure _)

theorem logMono_decrypt_token_body (m : CredentialManager) (pw : Option String) :
    LogMono (decrypt_token_body m pw) := by
  unfold decrypt_token_body
  apply logMono_bind (logMono_pathExists _)
  intro b
  split
  · exact logMono_bind (logMono_logMsg _ _) (fun _ => logMono_pure _)
  · apply logMono_bind (logMono_pathExists _)
    intro b₂
    split
    · exact logMono_bind (logMono_logMsg _ _) (fun _ => logMono_pure _)
    · apply logMono_bind (logMono_obtainPassword _ _)
      intro pwv
      apply logMono_bind (logMono_get_salt m)
      intro salt
      apply logMono_bind (logMono_logMsg _ _)
      intro _
      apply logMono_bind (logMono_readFileB _)
      intro art
      apply logMono_bind (logMono_logMsg _ _)
      intro _
      dsimp only
      split
      · apply logMono_pure_bind
        exact logMono_bind (logMono_logMsg _ _) (fun _ => logMono_pure _)
      · exact logMono_throw_bind

theorem failsLogged_encrypt_body (m : CredentialManager) (path : String)
    (pw : Option String) :
    FailsLogged (fun r : Bool => r = false) (encrypt_credentials_body m path pw) := by
  unfold encrypt_credentials_body
  apply failsLogged_bind (logMono_pathExists _)
  intro b
  split
  · exact failsLogged_after_grows (logGrows_logMsg _ _) (fun _ => logMono_pure _)
  · apply failsLogged_bind (logMono_obtainPassword _ _)
    intro pwv
    apply failsLogged_after_grows (logGrows_logMsg _ _)
    intro _
    apply logMono_bind (logMono_readFileB _)
    intro src
    dsimp only
    split
    · apply logMono_pure_bind
      apply logMono_bind (logMono_get_salt m)
      intro salt
      apply logMono_bind (logMono_logMsg _ _)
      intro _
      apply logMono_bind logMono_nextNonce
      intro nonce
      apply logMono_bind (logMono_logMsg _ _)
      intro _
      apply logMono_bind (logMono_writeFileB _ _)
      intro _
      exact logMono_bind (logMono_logMsg _ _) (fun _ => logMono_pure _)
    · exact logMono_throw_bind

theorem failsLogged_decrypt_body (m : CredentialManager) (pw : Option String) :
    FailsLogged (fun r : Option Json => r = none) (decrypt_credentials_body m pw) := by
  unfold decrypt_credentials_body
  apply failsLogged_bind (logMono_pathExists _)
  intro b
  split
  · exact failsLogged_after_grows (logGrows_logMsg _ _) (fun _ => logMono_pure _)
  · apply failsLogged_bind (logMono_pathExists _)
    intro b₂
    split
    · exact failsLogged_after_grows (logGrows_logMsg _ _) (fun _ => logMono_pure _)
    · apply failsLogged_bind (logMono_obtainPassword _ _)
      intro pwv
      apply failsLogged_after_grows (logGrows_get_salt m)
      intro salt
      apply logMono_bind (logMono_logMsg _ _)
      intro _
      apply logMono_bind (logMono_readFileB _)
      intro art
      apply logMono_bind (logMono_logMsg _ _)
      intro _
      dsimp only
      split
      · apply logMono_pure_bind
        dsimp only
        split
        · apply logMono_pure_bind
          exact logMono_bind (logMono_logMsg _ _) (fun _ => logMono_pure _)
        · exact logMono_throw_bind
      · exact logMono_throw_bind

theorem failsLogged_encrypt_token_body (m : CredentialManager) (td : List Nat)
    (pw : Option String) :
    FailsLogged (fun r : Bool => r = false) (encrypt_token_body m td pw) := by
  unfold encrypt_token_body
  apply failsLogged_bind (logMono_obtainPassword _ _)
  intro pwv
  apply failsLogged_after_grows (logGrows_get_salt m)
  intro salt
  apply logMono_bind (logMono_logMsg _ _)
  intro _
  apply logMono_bind logMono_nextNonce
  intro nonce
  apply logMono_bind (logMono_logMsg _ _)
  intro _
  apply logMono_bind (logMono_writeFileB _ _)
  intro _
  exact logMono_bind (logMono_logMsg _ _) (fun _ => logMono_pure _)

theorem failsLogged_decrypt_token_body (m : CredentialManager) (pw : Option String) :
    FailsLogged (fun r : Option (List Nat) => r = none) (decrypt_token_body m pw) := by
  unfold decrypt_token_body
  apply failsLogged_bind (logMono_pathExists _)
  intro b
  split
  · exact failsLogged_after_grows (logGrows_logMsg _ _) (fun _ => logMono_pure _)
  · apply failsLogged_bind (logMono_pathExists _)
    intro b₂
    split
    · exact failsLogged_after_grows (logGrows_logMsg _ _) (fun _ => logMono_pure _)
    · apply failsLogged_bind (logMono_obtainPassword _ _)
      intro pwv
      apply failsLogged_after_grows (logGrows_get_salt m)
      intro salt
      apply logMono_bind (logMono_logMsg _ _)
      intro _
      apply logMono_bind (logMono_readFileB _)
      intro art
      apply logMono_bind (logMono_logMsg _ _)
      intro _
      dsimp only
      split
      · apply logMono_pure_bind
        exact logMono_bind (logMono_logMsg _ _) (fun _ => logMono_pure _)
      · exact logMono_throw_bind

/-- Claim C4 — Totality of the vault boundary: every public vault operation
(`encrypt_credentials`, `decrypt_credentials`, `encrypt_token`,
`decrypt_token`) resolves every failure — missing source file, invalid JSON,
any I/O error — to a boolean/optional result (`False`/`None`) plus a log
entry, never raising an exception to the caller (each is a total function of
the world, with every `try` body exception consumed by its handler) and never
terminating the host process. -/
theorem c4_totality (m : CredentialManager) (path : String) (td : List Nat)
    (pw : Option String) (w : World) :
    ((encrypt_credentials m path pw w).1 = true ∨
      ((encrypt_credentials m path pw w).1 = false ∧
        w.log.length < (encrypt_credentials m path pw w).2.log.length)) ∧
    ((∃ v, (decrypt_credentials m pw w).1 = some v) ∨
      ((decrypt_credentials m pw w).1 = none ∧
        w.log.length < (decrypt_credentials m pw w).2.log.length)) ∧
    ((encrypt_token m td pw w).1 = true ∨
      ((encrypt_token m td pw w).1 = false ∧
        w.log.length < (encrypt_token m td pw w).2.log.length)) ∧
    ((∃ t, (decrypt_token m pw w).1 = some t) ∨
      ((decrypt_token m pw w).1 = none ∧
        w.log.length < (decrypt_token m pw w).2.log.length)) := by
  refine ⟨?_, ?_, ?_, ?_⟩
  · cases hr : (encrypt_credentials_body m path pw).run w with
    | ok a w₁ =>
      have heq : encrypt_credentials m path pw w = (a, w₁) := by
        unfold encrypt_credentials
        rw [hr]
      rw [heq]
      cases a with
      | true => exact Or.inl rfl
      | false =>
        exact Or.inr ⟨rfl, failsLogged_encrypt_body m path pw w false w₁ hr rfl⟩
    | error e w₁ =>
      have heq : encrypt_credentials m path pw w =
          (false, { w₁ with log := (.error, encryptErrMsg e) :: w₁.log }) := by
        unfold encrypt_credentials
        rw [hr]
      rw [heq]
      refine Or.inr ⟨rfl, ?_⟩
      obtain ⟨l, hl⟩ := logMono_encrypt_body m path pw w
      rw [hr] at hl
      simp only [resultState] at hl
      simp only [List.length_cons]
      rw [hl, List.length_append]
      omega
  · cases hr : (decrypt_credentials_body m pw).run w with
    | ok a w₁ =>
      have heq : decrypt_credentials m pw w = (a, w₁) := by
        unfold decrypt_credentials
        rw [hr]
      rw [heq]
      cases a with
      | some v => exact Or.inl ⟨v, rfl⟩
      | none =>
        exact Or.inr ⟨rfl, failsLogged_decrypt_body m pw w none w₁ hr rfl⟩
    | error e w₁ =>
      have heq : decrypt_credentials m pw w =
          (none, { w₁ with log := (.error, decryptErrMsg e) :: w₁.log }) := by
        unfold decrypt_credentials
        rw [hr]
      rw [heq]
      refine Or.inr ⟨rfl, ?_⟩
      obtain ⟨l, hl⟩ := logMono_decrypt_body m pw w
      rw [hr] at hl
      simp only [resultState] at hl
      simp only [List.length_cons]
      rw [hl, List.length_append]
      omega
  · cases hr : (encrypt_token_body m td pw).run w with
    | ok a w₁ =>
      have heq : encrypt_token m td pw w = (a, w₁) := by
        unfold encrypt_token
        rw [hr]
      rw [heq]
      cases a with
      | true => exact Or.inl rfl
      | false =>
        exact Or.inr ⟨rfl, failsLogged_encrypt_token_body m td pw w false w₁ hr rfl⟩
    | error e w₁ =>
      have heq : encrypt_token m td pw w =
          (false, { w₁ with log := (.error, "Failed to encrypt token") :: w₁.log }) := by
        unfold encrypt_token
        rw [hr]
      rw [heq]
      refine Or.inr ⟨rfl, ?_⟩
      obtain ⟨l, hl⟩ := logMono_encrypt_token_body m td pw w
      rw [hr] at hl
      simp only [resultState] at hl
      simp only [List.length_cons]
      rw [hl, List.length_append]
      omega
  · cases hr : (decrypt_token_body m pw).run w with
    | ok a w₁ =>
      have heq : decrypt_token m pw w = (a, w₁) := by
        unfold decrypt_token
        rw [hr]
      rw [heq]
      cases a with
      | some t => exact Or.inl ⟨t, rfl⟩
      | none =>
        exact Or.inr ⟨rfl, failsLogged_decrypt_token_body m pw w none w₁ hr rfl⟩
    | error e w₁ =>
      obtain ⟨l, hl⟩ := logMono_decrypt_token_body m pw w
      rw [hr] at hl
      simp only [resultState] at hl
      cases e with
      | fileNotFound p =>
        have heq : decrypt_token m pw w = (none,
            { w₁ with log := (.info, "Encrypted token file not found: " ++ p) :: w₁.log }) := by
          unfold decrypt_token
          rw [hr]
        rw [heq]
        refine Or.inr ⟨rfl, ?_⟩
        simp only [List.length_cons]
        rw [hl, List.length_append]
        omega
      | jsonDecodeError what =>
        have heq : decrypt_token m pw w = (none,
            { w₁ with log := (.error, "Failed to decrypt token") :: w₁.log }) := by
          unfold decrypt_token
          rw [hr]
        rw [heq]
        refine Or.inr ⟨rfl, ?_⟩
        simp only [List.length_cons]
        rw [hl, List.length_append]
        omega
      | invalidToken =>
        have heq : decrypt_token m pw w = (none,
            { w₁ with log := (.error, "Failed to decrypt token") :: w₁.log }) := by
          unfold decrypt_token
          rw [hr]
        rw [heq]
        refine Or.inr ⟨rfl, ?_⟩
        simp only [List.length_cons]
        rw [hl, List.length_append]
        omega
      | ioError p =>
        have heq : decrypt_token m pw w = (none,
            { w₁ with log := (.error, "Failed to decrypt token") :: w₁.log }) := by
          unfold decrypt_token
          rw [hr]
        rw [heq]
        refine Or.inr ⟨rfl, ?_⟩
        simp only [List.length_cons]
        rw [hl, List.length_append]
        omega
